import Mathlib

/-!
Verification of the temporal availability engine of the nettu-scheduler
repository: a shallow embedding, in Lean 4, of the interval-set
(`CompatibleInstances`) algebra, of the booking-slot enumeration, of the
service booking-slot grouping, of the job-scheduler helpers and of the
update-event use case, together with proofs and refutations of the
specification's claims about them.

Machine integers (`i64`) are modelled as `Int`: none of the verified code
performs arithmetic that can overflow at the scale of millisecond
timestamps, and the source relies on mathematical-integer reasoning.
`usize` quantities (`get_start_delay`) are modelled as `Nat`, with the
same truncated subtraction behaviour checked to be unreachable.
The `VecDeque<EventInstance>` inside `CompatibleInstances` is modelled as
a `List EventInstance` (front of the deque = head of the list).

The non-structural recursion of `EventInstance::remove_instances` and the
cursor loop of `get_booking_slots` are embedded with an explicit fuel
argument; exhausting the fuel is reported by a distinguished result
(`RunResult.fuelOut` resp. `Option.none`) that no actual execution of the
Rust code exhibits, while `RunResult.assertFailed` marks precisely the
program points where the Rust code would panic (a failed `assert_eq!` or
`unwrap`).
-/

/-- `EventInstance` of `crates/domain/src/event_instance.rs`:
an occurrence `[start_ts, end_ts)` carrying a `busy` tag. -/
structure EventInstance where
  start_ts : Int
  end_ts : Int
  busy : Bool
deriving DecidableEq

/-- The `CompatibleInstances` newtype holds a `VecDeque<EventInstance>`;
we model the deque as a plain list, head = front. -/
abbrev CompatibleInstances := List EventInstance

/-- Spec §3 invariant of `EventInstance`: `start_ts < end_ts`. -/
def ValidInstance (e : EventInstance) : Prop := e.start_ts < e.end_ts

instance (e : EventInstance) : Decidable (ValidInstance e) := by
  unfold ValidInstance; infer_instance

/-- All instances of a list are valid (`start_ts < end_ts`). -/
def AllValid (l : List EventInstance) : Prop := ∀ e ∈ l, ValidInstance e

instance (l : List EventInstance) : Decidable (AllValid l) := by
  unfold AllValid; infer_instance

/-- The documented invariant of `CompatibleInstances` (source lines 14-16):
the instances are sorted by lowest `start_ts` first and are compatible,
i.e. pairwise non-overlapping.  For valid instances sorted by start,
non-overlap of `a` before `b` is exactly `a.end_ts < b.start_ts`. -/
def CompatSorted (l : List EventInstance) : Prop :=
  l.Pairwise (fun a b => a.end_ts < b.start_ts)

instance (l : List EventInstance) : Decidable (CompatSorted l) := by
  unfold CompatSorted; infer_instance

/-- `EventInstance::has_overlap`. -/
def EventInstance.has_overlap (instance1 instance2 : EventInstance) : Bool :=
  decide (instance1.start_ts ≤ instance2.end_ts) &&
    decide (instance1.end_ts ≥ instance2.start_ts)

/-- `EventInstance::can_merge`. -/
def EventInstance.can_merge (instance1 instance2 : EventInstance) : Bool :=
  decide (instance1.busy = instance2.busy) &&
    EventInstance.has_overlap instance1 instance2

/-- `EventInstance::merge`. -/
def EventInstance.merge (instance1 instance2 : EventInstance) :
    Option EventInstance :=
  if EventInstance.can_merge instance1 instance2 then
    some { start_ts := min instance1.start_ts instance2.start_ts
           end_ts := max instance1.end_ts instance2.end_ts
           busy := instance1.busy }
  else
    none

/-- Stable sort by an integer key: the model of Rust's stable
`Vec::sort_by` with a comparison on that key.  Insertion sort with the
non-strict key order inserts every element after all earlier elements
with an equal key, so it computes the same list as any stable sort. -/
def sortByKey {α : Type} (key : α → Int) (l : List α) : List α :=
  List.insertionSort (fun a b => key a ≤ key b) l

/-- One step of the construction loop of `CompatibleInstances::new`:
the next (in sorted order) inst is either merged into the last
element of the accumulated deque or pushed at its back.  An empty
accumulator corresponds to the `i == 0` iteration of the Rust loop. -/
def CompatibleInstances.newFold (acc : List EventInstance)
    (inst : EventInstance) : List EventInstance :=
  match acc.getLast? with
  | none => [inst]
  | some last =>
    match EventInstance.merge inst last with
    | some merged => acc.dropLast ++ [merged]
    | none => acc ++ [inst]

/-- `CompatibleInstances::new`: sort by `start_ts` (stably), then fold,
coalescing each inst into the current tail when `can_merge` holds. -/
def CompatibleInstances.new (events : List EventInstance) :
    CompatibleInstances :=
  (sortByKey (fun e => e.start_ts) events).foldl CompatibleInstances.newFold []

/-- `CompatibleInstances::push_front`: refuses (returning the deque
unchanged, as the Rust `bool` result is ignored by every caller) when the
current first inst starts before `inst` ends. -/
def CompatibleInstances.push_front (events : CompatibleInstances)
    (inst : EventInstance) : CompatibleInstances :=
  match events with
  | [] => [inst]
  | first :: rest =>
    if first.start_ts < inst.end_ts then first :: rest
    else inst :: first :: rest

/-- `CompatibleInstances::push_back`: refuses when the current last
inst ends after `inst` starts. -/
def CompatibleInstances.push_back (events : CompatibleInstances)
    (inst : EventInstance) : CompatibleInstances :=
  match events.getLast? with
  | none => events ++ [inst]
  | some last =>
    if last.end_ts > inst.start_ts then events
    else events ++ [inst]

/-- `CompatibleInstances::extend`: `push_back` every inst of the
argument in order. -/
def CompatibleInstances.extend (events : CompatibleInstances)
    (instances : CompatibleInstances) : CompatibleInstances :=
  instances.foldl CompatibleInstances.push_back events

/-- `SubtractInstanceResult` of the source. -/
inductive SubtractInstanceResult where
  | noOverlap : SubtractInstanceResult
  | overlapBeginning : CompatibleInstances → SubtractInstanceResult
  | overlapEnd : CompatibleInstances → SubtractInstanceResult
  | split : CompatibleInstances → SubtractInstanceResult
  | empty : SubtractInstanceResult
deriving DecidableEq

/-- `EventInstance::remove_instance`: classify the busy interval
`inst` against the free interval `free_instance` and return the
remaining free parts. -/
def EventInstance.remove_instance (free_instance inst : EventInstance) :
    SubtractInstanceResult :=
  if EventInstance.has_overlap free_instance inst = false ∨
      free_instance.start_ts = inst.end_ts then
    SubtractInstanceResult.noOverlap
  else if inst.start_ts ≤ free_instance.start_ts ∧
      inst.end_ts ≥ free_instance.end_ts then
    SubtractInstanceResult.empty
  else if inst.start_ts > free_instance.start_ts ∧
      inst.end_ts < free_instance.end_ts then
    SubtractInstanceResult.split (CompatibleInstances.new
      [{ start_ts := free_instance.start_ts, end_ts := inst.start_ts,
         busy := false },
       { start_ts := inst.end_ts, end_ts := free_instance.end_ts,
         busy := false }])
  else if free_instance.start_ts ≥ inst.start_ts then
    SubtractInstanceResult.overlapBeginning (CompatibleInstances.new
      [{ start_ts := inst.end_ts, end_ts := free_instance.end_ts,
         busy := false }])
  else
    SubtractInstanceResult.overlapEnd (CompatibleInstances.new
      [{ start_ts := free_instance.start_ts, end_ts := inst.start_ts,
         busy := false }])

/-- Result of running a fueled embedding of Rust code: a normal value,
a panic (failed `assert_eq!` or `unwrap`), or exhaustion of the
artificial recursion budget. -/
inductive RunResult (α : Type) where
  | ok : α → RunResult α
  | assertFailed : RunResult α
  | fuelOut : RunResult α
deriving DecidableEq

/-- The loop of `EventInstance::remove_instances` (source lines 190-247).
`bs` is the full busy deque, `f` the free inst being reduced, `skip`
the skip count given to the function, `pos` the `enumerate` index over
`bs.iter().skip(skip)` (so the current busy inst is `bs[skip+pos]`),
`conflict` the mutable flag and `acc` the accumulated
`free_instances_without_conflict`.  A recursive
`event.remove_intances(instances, pos + 1)` on a one- or two-element
`CompatibleInstances` produced by `remove_instance` is embedded as a
direct recursive call on its single relevant element, as licensed by the
`assert_eq!` length checks which are embedded as the `[x]` / `[first,
last]` shape matches (any other shape is the corresponding panic). -/
def EventInstance.removeInstancesGo (fuel : Nat) (bs : CompatibleInstances)
    (f : EventInstance) (skip pos : Nat) (conflict : Bool)
    (acc : List EventInstance) : RunResult (List EventInstance) :=
  match fuel with
  | 0 => RunResult.fuelOut
  | fuel + 1 =>
    match bs[skip + pos]? with
    | none =>
      RunResult.ok
        (if conflict then acc else CompatibleInstances.push_back acc f)
    | some b =>
      if b.start_ts ≥ f.end_ts then
        RunResult.ok
          (if conflict then acc else CompatibleInstances.push_back acc f)
      else
        match EventInstance.remove_instance f b with
        | SubtractInstanceResult.overlapEnd e =>
          match e with
          | [x] =>
            EventInstance.removeInstancesGo fuel bs f skip (pos + 1) true
              (CompatibleInstances.extend acc [x])
          | _ => RunResult.assertFailed
        | SubtractInstanceResult.overlapBeginning e =>
          match e with
          | [x] =>
            match EventInstance.removeInstancesGo fuel bs x (pos + 1) 0 false
                [] with
            | RunResult.ok r =>
              EventInstance.removeInstancesGo fuel bs f skip (pos + 1) true
                (CompatibleInstances.extend acc r)
            | RunResult.assertFailed => RunResult.assertFailed
            | RunResult.fuelOut => RunResult.fuelOut
          | _ => RunResult.assertFailed
        | SubtractInstanceResult.split e =>
          match e with
          | [first, last] =>
            match EventInstance.removeInstancesGo fuel bs last (pos + 1) 0
                false [] with
            | RunResult.ok r =>
              EventInstance.removeInstancesGo fuel bs f skip (pos + 1) true
                (CompatibleInstances.extend acc
                  (CompatibleInstances.push_front r first))
            | RunResult.assertFailed => RunResult.assertFailed
            | RunResult.fuelOut => RunResult.fuelOut
          | _ => RunResult.assertFailed
        | SubtractInstanceResult.empty =>
          EventInstance.removeInstancesGo fuel bs f skip (pos + 1) true acc
        | SubtractInstanceResult.noOverlap =>
          EventInstance.removeInstancesGo fuel bs f skip (pos + 1) false acc

/-- `EventInstance::remove_instances`. -/
def EventInstance.remove_instances (fuel : Nat) (f : EventInstance)
    (intances : CompatibleInstances) (skip : Nat) :
    RunResult (List EventInstance) :=
  EventInstance.removeInstancesGo fuel intances f skip 0 false []

/-- `CompatibleInstances::remove_intances`: map `remove_instances` over
the free instances and flatten, propagating a panic of any element. -/
def CompatibleInstances.remove_intances (fuel : Nat)
    (self : CompatibleInstances) (instances : CompatibleInstances)
    (skip : Nat) : RunResult CompatibleInstances :=
  match self with
  | [] => RunResult.ok []
  | f :: rest =>
    match EventInstance.remove_instances fuel f instances skip with
    | RunResult.ok r =>
      match CompatibleInstances.remove_intances fuel rest instances skip with
      | RunResult.ok rs => RunResult.ok (r ++ rs)
      | RunResult.assertFailed => RunResult.assertFailed
      | RunResult.fuelOut => RunResult.fuelOut
    | RunResult.assertFailed => RunResult.assertFailed
    | RunResult.fuelOut => RunResult.fuelOut

/-! ## Booking slots (`crates/domain/src/booking_slots.rs`) -/

/-- `BookingSlot`. -/
structure BookingSlot where
  start : Int
  duration : Int
  available_until : Int
deriving DecidableEq

/-- `is_cursor_in_events`: the first free event containing
`[cursor, cursor + duration]`. -/
def is_cursor_in_events (cursor duration : Int)
    (events : CompatibleInstances) : Option EventInstance :=
  events.find? (fun event =>
    decide (event.start_ts ≤ cursor) &&
      decide (event.end_ts ≥ cursor + duration))

/-- `BookingSlotsOptions`. -/
structure BookingSlotsOptions where
  start_ts : Int
  end_ts : Int
  duration : Int
  interval : Int
deriving DecidableEq

/-- The cursor loop of `get_booking_slots` (source lines 103-115),
embedded with fuel: `none` means the budget was exhausted before the
loop condition `cursor + duration <= end_ts` failed. -/
def getBookingSlotsGo (free_events : CompatibleInstances)
    (end_ts duration interval : Int) :
    Nat → Int → Option (List BookingSlot)
  | 0, _ => none
  | fuel + 1, cursor =>
    if cursor + duration ≤ end_ts then
      match getBookingSlotsGo free_events end_ts duration interval fuel
          (cursor + interval) with
      | none => none
      | some rest =>
        match is_cursor_in_events cursor duration free_events with
        | some event =>
          some ({ start := cursor, duration := duration,
                  available_until := event.end_ts } :: rest)
        | none => some rest
    else
      some []

/-- `get_booking_slots`. -/
def get_booking_slots (fuel : Nat) (free_events : CompatibleInstances)
    (options : BookingSlotsOptions) : Option (List BookingSlot) :=
  if options.duration < 1 then some []
  else
    getBookingSlotsGo free_events options.end_ts options.duration
      options.interval fuel options.start_ts

/-- `validate_slots_interval`: the boundary check on the slot interval,
`10 min ≤ interval ≤ 60 min` in milliseconds. -/
def validate_slots_interval (interval : Int) : Bool :=
  decide (interval ≥ 1000 * 60 * 10) && decide (interval ≤ 1000 * 60 * 60)

/-- User ids (Rust `ID`, an opaque identifier) are modelled as naturals. -/
abbrev ID := Nat

/-- `UserFreeEvents`. -/
structure UserFreeEvents where
  free_events : CompatibleInstances
  user_id : ID
deriving DecidableEq

/-- `ServiceBookingSlot`. -/
structure ServiceBookingSlot where
  start : Int
  duration : Int
  user_ids : List ID
deriving DecidableEq

/-- `HashMap::get` on the `slots_lookup` map, modelled as an association
list keyed by slot start. -/
def lookupSlot : List (Int × ServiceBookingSlot) → Int →
    Option ServiceBookingSlot
  | [], _ => none
  | (k, v) :: rest, s => if k = s then some v else lookupSlot rest s

/-- `HashMap::insert` on the `slots_lookup` map: replace the entry with
the given key in place, or add a new entry. -/
def insertSlot : List (Int × ServiceBookingSlot) → Int →
    ServiceBookingSlot → List (Int × ServiceBookingSlot)
  | [], k, v => [(k, v)]
  | (k', v') :: rest, k, v =>
    if k' = k then (k, v) :: rest else (k', v') :: insertSlot rest k v

/-- The loop body of `get_service_bookingslots` for a single booking
slot of a user (source lines 58-78): append the user id to the map entry
at the slot's start, creating the entry if absent. -/
def addUserSlot (m : List (Int × ServiceBookingSlot)) (uid : ID)
    (slot : BookingSlot) : List (Int × ServiceBookingSlot) :=
  match lookupSlot m slot.start with
  | some val =>
    insertSlot m slot.start
      { duration := slot.duration, start := slot.start,
        user_ids := val.user_ids ++ [uid] }
  | none =>
    insertSlot m slot.start
      { duration := slot.duration, start := slot.start,
        user_ids := [uid] }

/-- The inner loop of `get_service_bookingslots` for a single user
(source lines 57-79): fold the user's booking slots into the lookup map,
appending the user id to the slot at each start. -/
def addUserSlots (m : List (Int × ServiceBookingSlot)) (uid : ID)
    (slots : List BookingSlot) : List (Int × ServiceBookingSlot) :=
  slots.foldl (fun m slot => addUserSlot m uid slot) m

/-- The outer loop of `get_service_bookingslots`: process every user in
order, computing that user's booking slots with the given fuel. -/
def serviceFold (fuel : Nat) (options : BookingSlotsOptions) :
    List UserFreeEvents → List (Int × ServiceBookingSlot) →
    Option (List (Int × ServiceBookingSlot))
  | [], m => some m
  | user :: rest, m =>
    match get_booking_slots fuel user.free_events options with
    | none => none
    | some slots =>
      serviceFold fuel options rest (addUserSlots m user.user_id slots)

/-- `get_service_bookingslots`: fold all users into the lookup map, then
drain the map and sort the slots by `start`.  The drain order of the
Rust `HashMap` is arbitrary, but since the keys are distinct the sorted
result does not depend on it; we drain in association-list order. -/
def get_service_bookingslots (fuel : Nat) (users_free : List UserFreeEvents)
    (options : BookingSlotsOptions) : Option (List ServiceBookingSlot) :=
  match serviceFold fuel options users_free [] with
  | none => none
  | some m => some (sortByKey (fun s => s.start) (m.map (fun p => p.2)))

/-- Whether a user's free events emit a booking slot starting at `s`
under the given options and fuel: the per-user predicate that
characterises the grouping performed by `get_service_bookingslots`. -/
def userEmits (fuel : Nat) (options : BookingSlotsOptions)
    (u : UserFreeEvents) (s : Int) : Bool :=
  match get_booking_slots fuel u.free_events options with
  | some slots => slots.any (fun sl => decide (sl.start = s))
  | none => false

/-! ## Job schedulers (`server/crates/api/src/job_schedulers.rs`) -/

/-- `get_start_delay` (`usize` arithmetic modelled as `Nat`; no
subtraction below zero is reachable for `secs_before_min ≤ 60`). -/
def get_start_delay (now_ts secs_before_min : Nat) : Nat :=
  let secs_to_next_minute := 60 - (now_ts / 1000) % 60
  if secs_to_next_minute > secs_before_min then
    secs_to_next_minute - secs_before_min
  else
    secs_to_next_minute + (60 - secs_before_min)

/-- The number of seconds passed to `Duration::from_secs` for the tick
interval of `start_reminders_expansion_job_scheduler`
(source line 26: `interval(Duration::from_secs(30 * 60 * 1000))`). -/
def reminders_expansion_tick_secs : Nat := 30 * 60 * 1000

/-! ## Update-event use case (`crates/api/src/event/update_event.rs`)

The use case's collaborators that are not part of the analysed sources
(`CalendarEventReminder::is_valid`, `RRuleOptions`,
`CalendarEvent::set_recurrence`, `Metadata`, the repositories and the
clock) are modelled abstractly; the control flow of
`UpdateEventUseCase::execute` is embedded faithfully. -/

/-- Modelled from the spec: `CalendarEventReminder` carries a validity
predicate (`is_valid`); its internal fields (the reminder offset) are
irrelevant to the control flow under analysis, so validity is kept as an
abstract boolean field. -/
structure CalendarEventReminder where
  validity : Bool
deriving DecidableEq

/-- `CalendarEventReminder::is_valid` (not part of the analysed sources;
modelled from the spec as the reminder's validity). -/
def CalendarEventReminder.is_valid (r : CalendarEventReminder) : Bool :=
  r.validity

/-- Modelled from the spec: a recurrence rule together with the verdict
that `CalendarEvent::set_recurrence` would give for it against the
calendar settings (spec §4.B: invalid rules are rejected at mutation
time). -/
structure RRuleOptions where
  rule_ok : Bool
deriving DecidableEq

/-- `Metadata` is opaque to the use case; modelled as a natural. -/
abbrev Metadata := Nat

/-- The fields of `CalendarEvent` read or written by
`UpdateEventUseCase::execute`. -/
structure CalendarEvent where
  id : ID
  user_id : ID
  calendar_id : ID
  start_ts : Int
  duration : Int
  busy : Bool
  reminder : Option CalendarEventReminder
  recurrence : Option RRuleOptions
  is_service : Bool
  exdates : List Int
  metadata : Metadata
  updated : Int
deriving DecidableEq

/-- The calendar returned by the calendar repository; only its settings
are passed on (to `set_recurrence`), which our recurrence model already
accounts for. -/
structure Calendar where
  id : ID
deriving DecidableEq

/-- Modelled from the spec (§4.B): `CalendarEvent::set_recurrence`
validates the rule (returning `false` on an invalid rule) and installs
it on the event when valid. -/
def CalendarEvent.set_recurrence (e : CalendarEvent) (opts : RRuleOptions) :
    Bool × CalendarEvent :=
  if opts.rule_ok then (true, { e with recurrence := some opts }) else (false, e)

/-- `UpdateEventUseCase` (the request). -/
structure UpdateEventUseCase where
  user_id : ID
  event_id : ID
  start_ts : Option Int
  busy : Option Bool
  duration : Option Int
  reminder : Option CalendarEventReminder
  recurrence : Option RRuleOptions
  is_service : Option Bool
  exdates : Option (List Int)
  metadata : Option Metadata
deriving DecidableEq

/-- `UseCaseErrors` of the update-event use case. -/
inductive UpdateEventError where
  | notFound : String → ID → UpdateEventError
  | invalidReminder : UpdateEventError
  | storageError : UpdateEventError
  | invalidRecurrenceRule : UpdateEventError
deriving DecidableEq

/-- The tail of `UpdateEventUseCase::execute` after the reminder check:
overwrite the reminder with the request's, look up the calendar, apply
start/duration/busy changes, re-validate recurrence, stamp `updated` and
save. -/
def UpdateEventUseCase.executeAfterReminder (uc : UpdateEventUseCase)
    (e3 : CalendarEvent) (findCalendar : Option Calendar) (now : Int)
    (saveOk : Bool) : Except UpdateEventError CalendarEvent :=
  let e4 := { e3 with reminder := uc.reminder }
  match findCalendar with
  | none => Except.error (UpdateEventError.notFound "Calendar" e4.calendar_id)
  | some _calendar =>
    let p5 := match uc.start_ts with
      | some start_ts =>
        if e4.start_ts ≠ start_ts then
          ({ e4 with start_ts := start_ts, exdates := [] }, true)
        else (e4, false)
      | none => (e4, false)
    let p6 := match uc.duration with
      | some duration =>
        if p5.1.duration ≠ duration then
          ({ p5.1 with duration := duration }, true)
        else p5
      | none => p5
    let e7 := match uc.busy with
      | some busy => { p6.1 with busy := busy }
      | none => p6.1
    let recRes := match uc.recurrence with
      | some rrule_opts => CalendarEvent.set_recurrence e7 rrule_opts
      | none =>
        if p6.2 ∧ e7.recurrence.isSome then
          CalendarEvent.set_recurrence e7 (e7.recurrence.getD ⟨true⟩)
        else (true, e7)
    if recRes.1 = false then
      Except.error UpdateEventError.invalidRecurrenceRule
    else
      let e8 := { recRes.2 with updated := now }
      if saveOk then Except.ok e8
      else Except.error UpdateEventError.storageError
/-- `UpdateEventUseCase::execute` (source lines 125-217).  The event and
calendar repositories are abstracted as the lookup results `findEvent`
and `findCalendar`, the clock as `now`, and the success of
`event_repo.save` as `saveOk`; the returned `ok` value is exactly the
event that was saved. -/
def UpdateEventUseCase.execute (uc : UpdateEventUseCase)
    (findEvent : Option CalendarEvent) (findCalendar : Option Calendar)
    (now : Int) (saveOk : Bool) : Except UpdateEventError CalendarEvent :=
  match findEvent with
  | none => Except.error (UpdateEventError.notFound "Calendar Event" uc.event_id)
  | some event =>
    if event.user_id = uc.user_id then
      let e1 := match uc.is_service with
        | some is_service => { event with is_service := is_service }
        | none => event
      let e2 := match uc.exdates with
        | some exdates => { e1 with exdates := exdates }
        | none => e1
      let e3 := match uc.metadata with
        | some metadata => { e2 with metadata := metadata }
        | none => e2
      match e3.reminder with
      | some reminder =>
        if reminder.is_valid = false then
          Except.error UpdateEventError.invalidReminder
        else
          UpdateEventUseCase.executeAfterReminder uc e3 findCalendar now saveOk
      | none =>
        UpdateEventUseCase.executeAfterReminder uc e3 findCalendar now saveOk
    else
      Except.error (UpdateEventError.notFound "Calendar Event" uc.event_id)


/-! ## Generic facts about `sortByKey` -/

theorem sortByKey_pairwise {α : Type} (key : α → Int) (l : List α) :
    (sortByKey key l).Pairwise (fun a b => key a ≤ key b) := by
  haveI : IsTotal α (fun a b => key a ≤ key b) := ⟨fun a b => le_total _ _⟩
  haveI : IsTrans α (fun a b => key a ≤ key b) := ⟨fun _ _ _ => le_trans⟩
  exact List.sorted_insertionSort _ l

theorem sortByKey_perm {α : Type} (key : α → Int) (l : List α) :
    (sortByKey key l).Perm l :=
  List.perm_insertionSort _ l

theorem mem_sortByKey {α : Type} {key : α → Int} {l : List α} {a : α} :
    a ∈ sortByKey key l ↔ a ∈ l :=
  (sortByKey_perm key l).mem_iff

/-! ## The construction invariant of `CompatibleInstances::new` (claim C2) -/

theorem newFoldl_spec :
    ∀ (l acc : List EventInstance),
      (∀ x ∈ l, ValidInstance x) →
      l.Pairwise (fun a b => a.start_ts ≤ b.start_ts) →
      (∀ a ∈ acc, ValidInstance a) →
      acc.Pairwise (fun a b => a.start_ts ≤ b.start_ts) →
      (∀ a ∈ acc, ∀ x ∈ l, a.start_ts ≤ x.start_ts) →
      acc.Chain' (fun a b => a.busy = b.busy → a.end_ts < b.start_ts) →
      (∀ a ∈ l.foldl CompatibleInstances.newFold acc, ValidInstance a) ∧
      (l.foldl CompatibleInstances.newFold acc).Pairwise
        (fun a b => a.start_ts ≤ b.start_ts) ∧
      (l.foldl CompatibleInstances.newFold acc).Chain'
        (fun a b => a.busy = b.busy → a.end_ts < b.start_ts) := by
  intro l
  induction l with
  | nil => intro acc _ _ h1 h2 _ h3; exact ⟨h1, h2, h3⟩
  | cons x l ih =>
    intro acc hlv hlp hav hap hal hac
    have hx : x.start_ts < x.end_ts := hlv x (by simp)
    have hxl : ∀ y ∈ l, x.start_ts ≤ y.start_ts := by
      intro y hy; exact List.rel_of_pairwise_cons hlp hy
    have hlv' : ∀ y ∈ l, ValidInstance y := fun y hy => hlv y (by simp [hy])
    have hlp' : l.Pairwise (fun a b => a.start_ts ≤ b.start_ts) :=
      (List.pairwise_cons.mp hlp).2
    simp only [List.foldl_cons]
    have key : (∀ a ∈ CompatibleInstances.newFold acc x, ValidInstance a) ∧
        (CompatibleInstances.newFold acc x).Pairwise
          (fun a b => a.start_ts ≤ b.start_ts) ∧
        (∀ a ∈ CompatibleInstances.newFold acc x, ∀ y ∈ l,
          a.start_ts ≤ y.start_ts) ∧
        (CompatibleInstances.newFold acc x).Chain'
          (fun a b => a.busy = b.busy → a.end_ts < b.start_ts) := by
      cases hlast : acc.getLast? with
      | none =>
        have hnf : CompatibleInstances.newFold acc x = [x] := by
          simp only [CompatibleInstances.newFold, hlast]
        rw [hnf]
        refine ⟨?_, by simp, ?_, by simp⟩
        · intro a ha
          have haeq : a = x := List.mem_singleton.mp ha
          rw [haeq]; exact hx
        · intro a ha y hy
          have haeq : a = x := List.mem_singleton.mp ha
          rw [haeq]; exact hxl y hy
      | some last =>
        have hlm : last ∈ acc := List.mem_of_mem_getLast? (by simp [hlast])
        have heq : acc.dropLast ++ [last] = acc :=
          List.dropLast_append_getLast? last (by simp [hlast])
        have hlastv : last.start_ts < last.end_ts := hav last hlm
        have hls : last.start_ts ≤ x.start_ts := hal last hlm x (by simp)
        have hdmem : ∀ a ∈ acc.dropLast, a ∈ acc := by
          intro a ha
          have h1 : a ∈ acc.dropLast ++ [last] := List.mem_append_left _ ha
          rwa [heq] at h1
        have hap' : (acc.dropLast ++ [last]).Pairwise
            (fun a b => a.start_ts ≤ b.start_ts) := by rw [heq]; exact hap
        have hac' : (acc.dropLast ++ [last]).Chain'
            (fun a b => a.busy = b.busy → a.end_ts < b.start_ts) := by
          rw [heq]; exact hac
        obtain ⟨hpd, -, hpl⟩ := List.pairwise_append.mp hap'
        obtain ⟨hcd, -, hcl⟩ := List.chain'_append.mp hac'
        cases hm : EventInstance.merge x last with
        | some merged =>
          have hnf : CompatibleInstances.newFold acc x
              = acc.dropLast ++ [merged] := by
            simp only [CompatibleInstances.newFold, hlast, hm]
          rw [hnf]
          have hcm : EventInstance.can_merge x last = true := by
            by_contra h
            rw [Bool.not_eq_true] at h
            rw [EventInstance.merge, h] at hm
            simp at hm
          have hbusy : x.busy = last.busy := by
            rw [EventInstance.can_merge, Bool.and_eq_true,
              decide_eq_true_iff] at hcm
            exact hcm.1
          have hmerged : merged =
              ⟨min x.start_ts last.start_ts, max x.end_ts last.end_ts,
                x.busy⟩ := by
            rw [EventInstance.merge, hcm] at hm
            simpa using hm.symm
          have hms : merged.start_ts = last.start_ts := by
            rw [hmerged]; exact min_eq_right hls
          have hmb : merged.busy = last.busy := by rw [hmerged]; exact hbusy
          have hmv : merged.start_ts < merged.end_ts := by
            rw [hms, hmerged]
            exact lt_of_lt_of_le hlastv (le_max_right _ _)
          refine ⟨?_, ?_, ?_, ?_⟩
          · intro a ha
            rcases List.mem_append.mp ha with ha | ha
            · exact hav a (hdmem a ha)
            · have haeq : a = merged := List.mem_singleton.mp ha
              rw [haeq]; exact hmv
          · refine List.pairwise_append.mpr ⟨hpd, by simp, ?_⟩
            intro a ha b hb
            have hbeq : b = merged := List.mem_singleton.mp hb
            rw [hbeq, hms]
            exact hpl a ha last (by simp)
          · intro a ha y hy
            rcases List.mem_append.mp ha with ha | ha
            · exact hal a (hdmem a ha) y (by simp [hy])
            · have haeq : a = merged := List.mem_singleton.mp ha
              rw [haeq, hms]
              exact hal last hlm y (by simp [hy])
          · refine List.chain'_append.mpr ⟨hcd, by simp, ?_⟩
            intro z hz w hw
            have hweq : w = merged := by
              rw [List.head?_cons, Option.mem_def] at hw
              exact (Option.some_inj.mp hw).symm
            rw [hweq]
            intro hzb
            rw [hms]
            exact hcl z hz last (by simp) (by rw [← hmb]; exact hzb)
        | none =>
          have hnf : CompatibleInstances.newFold acc x = acc ++ [x] := by
            simp only [CompatibleInstances.newFold, hlast, hm]
          rw [hnf]
          have hno : EventInstance.can_merge x last = false := by
            by_contra h
            rw [Bool.not_eq_false] at h
            rw [EventInstance.merge, h] at hm
            simp at hm
          refine ⟨?_, ?_, ?_, ?_⟩
          · intro a ha
            rcases List.mem_append.mp ha with ha | ha
            · exact hav a ha
            · have haeq : a = x := List.mem_singleton.mp ha
              rw [haeq]; exact hx
          · refine List.pairwise_append.mpr ⟨hap, by simp, ?_⟩
            intro a ha b hb
            have hbeq : b = x := List.mem_singleton.mp hb
            rw [hbeq]
            exact hal a ha x (by simp)
          · intro a ha y hy
            rcases List.mem_append.mp ha with ha | ha
            · exact hal a ha y (by simp [hy])
            · have haeq : a = x := List.mem_singleton.mp ha
              rw [haeq]; exact hxl y hy
          · refine List.chain'_append.mpr ⟨hac, by simp, ?_⟩
            intro z hz w hw
            have hweq : w = x := by
              rw [List.head?_cons, Option.mem_def] at hw
              exact (Option.some_inj.mp hw).symm
            have hzeq : z = last := by
              rw [Option.mem_def, hlast] at hz
              exact (Option.some_inj.mp hz).symm
            rw [hweq, hzeq]
            intro hzb
            have hov : EventInstance.has_overlap x last = false := by
              rw [EventInstance.can_merge, Bool.and_eq_false_iff] at hno
              rcases hno with h | h
              · rw [decide_eq_false_iff_not] at h
                exact absurd hzb.symm h
              · exact h
            rw [EventInstance.has_overlap, Bool.and_eq_false_iff] at hov
            rcases hov with h | h <;> rw [decide_eq_false_iff_not] at h <;>
              omega
    exact ih _ hlv' hlp' key.1 key.2.1 key.2.2.1 key.2.2.2

/-- C2 (counterexample): the sequence produced by
`CompatibleInstances::new` is NOT always strictly ascending by
`start_ts`: two valid instances with equal starts and different `busy`
tags cannot merge, and the stable sort keeps them both, so the claimed
conjunction (strict ascent ∧ coalescedness) fails on
`[{0,2,free}, {0,2,busy}]`. -/
theorem claim_C2_counterexample :
    AllValid [⟨0, 2, false⟩, ⟨0, 2, true⟩] ∧
    ¬ ((CompatibleInstances.new [⟨0, 2, false⟩, ⟨0, 2, true⟩]).Pairwise
        (fun a b => a.start_ts < b.start_ts) ∧
      (CompatibleInstances.new [⟨0, 2, false⟩, ⟨0, 2, true⟩]).Chain'
        (fun a b => ¬(a.end_ts ≥ b.start_ts ∧ a.busy = b.busy))) := by
  refine ⟨by decide, ?_⟩
  intro h
  have h1 := h.1
  rw [show CompatibleInstances.new [⟨0, 2, false⟩, ⟨0, 2, true⟩]
      = [⟨0, 2, false⟩, ⟨0, 2, true⟩] from by decide] at h1
  have h2 := List.rel_of_pairwise_cons h1 (List.mem_singleton.mpr rfl)
  exact absurd h2 (lt_irrefl _)

/-- C2 (amended): for every input vector of valid instances
(`start_ts < end_ts`), `CompatibleInstances::new` produces a sequence
that is ascending (non-strictly — ties arise exactly between instances
of different `busy` tags) by `start_ts`, and no consecutive pair
overlaps or touches while carrying the same `busy` tag (same-tag
instances are maximally coalesced). -/
theorem claim_C2_amended (xs : List EventInstance) (hv : AllValid xs) :
    (CompatibleInstances.new xs).Pairwise
      (fun a b => a.start_ts ≤ b.start_ts) ∧
    (CompatibleInstances.new xs).Chain'
      (fun a b => ¬(a.end_ts ≥ b.start_ts ∧ a.busy = b.busy)) := by
  have h := newFoldl_spec (sortByKey (fun e => e.start_ts) xs) []
    (fun x hx => hv x (mem_sortByKey.mp hx))
    (sortByKey_pairwise _ xs)
    (by intro a ha; exact absurd ha (List.not_mem_nil a))
    (by simp)
    (by intro a ha; exact absurd ha (List.not_mem_nil a))
    (by simp)
  refine ⟨h.2.1, List.Chain'.imp ?_ h.2.2⟩
  intro a b hab hcontra
  exact absurd (hab hcontra.2) (not_lt.mpr hcontra.1)

/-- C2 (witness for the amended claim): the amended invariant at the
input of the `compatible_events_test_5` unit test. -/
theorem claim_C2_amended_witness :
    AllValid [⟨5, 10, false⟩, ⟨1, 7, false⟩, ⟨6, 14, false⟩, ⟨20, 30, false⟩,
      ⟨24, 40, false⟩, ⟨44, 50, false⟩] ∧
    ((CompatibleInstances.new [⟨5, 10, false⟩, ⟨1, 7, false⟩, ⟨6, 14, false⟩,
        ⟨20, 30, false⟩, ⟨24, 40, false⟩, ⟨44, 50, false⟩]).Pairwise
      (fun a b => a.start_ts ≤ b.start_ts) ∧
    (CompatibleInstances.new [⟨5, 10, false⟩, ⟨1, 7, false⟩, ⟨6, 14, false⟩,
        ⟨20, 30, false⟩, ⟨24, 40, false⟩, ⟨44, 50, false⟩]).Chain'
      (fun a b => ¬(a.end_ts ≥ b.start_ts ∧ a.busy = b.busy))) :=
  ⟨by decide, claim_C2_amended _ (by decide)⟩

/-- C8: `get_start_delay` returns the seconds to the next minute
boundary, `60 − ((now_ts/1000) mod 60)`, shifted back by
`secs_before_min`, wrapping forward one full minute when the shifted
moment would not be strictly in the future; the three dispatch-alignment
examples of the spec evaluate as claimed. -/
theorem claim_C8 (now_ts secs_before_min : Nat) (h : secs_before_min ≤ 60) :
    (get_start_delay now_ts secs_before_min : Int) =
      (60 - ((now_ts / 1000) % 60 : Nat)) - secs_before_min +
        (if (secs_before_min : Int) < 60 - ((now_ts / 1000) % 60 : Nat)
          then 0 else 60) ∧
    get_start_delay 50000 5 = 5 ∧
    get_start_delay 50000 10 = 60 ∧
    get_start_delay 59000 1 = 60 := by
  refine ⟨?_, by decide, by decide, by decide⟩
  simp only [get_start_delay]
  have hm : (now_ts / 1000) % 60 < 60 := Nat.mod_lt _ (by omega)
  split_ifs with h1 h2 h3 <;> omega

/-- C8 (witness): the general formula instantiated at
`now_ts = 50000`, `secs_before_min = 5`. -/
theorem claim_C8_witness :
    (get_start_delay 50000 5 : Int) =
      (60 - ((50000 / 1000) % 60 : Nat)) - 5 +
        (if ((5 : Nat) : Int) < 60 - ((50000 / 1000) % 60 : Nat)
          then 0 else 60) ∧
    get_start_delay 50000 5 = 5 ∧
    get_start_delay 50000 10 = 60 ∧
    get_start_delay 59000 1 = 60 :=
  claim_C8 50000 5 (by decide)

/-- C7 (code bug): the tick interval configured for the
reminder-expansion job is `Duration::from_secs(30 * 60 * 1000)`, i.e.
1,800,000 seconds — not the 1,800 seconds (30 minutes) that the spec
prescribes; the constant `30 * 60 * 1000` is a milliseconds value
mistakenly given to a seconds constructor. -/
theorem claim_C7_code_divergence :
    reminders_expansion_tick_secs = 1800000 ∧
    reminders_expansion_tick_secs ≠ 1800 := by decide

/-- C6 (code bug): `UpdateEventUseCase::execute` validates the STORED
event's old reminder and then unconditionally overwrites it with the
request's reminder.  For a request carrying an invalid reminder and a
stored event with no (or a valid) reminder, the use case does not return
`InvalidReminder`: it saves the event with the invalid reminder and
returns `Ok`. -/
theorem claim_C6_code_divergence :
    (CalendarEventReminder.is_valid ⟨false⟩ = false) ∧
    UpdateEventUseCase.execute
      { user_id := 1, event_id := 2, start_ts := none, busy := none,
        duration := none, reminder := some ⟨false⟩, recurrence := none,
        is_service := none, exdates := none, metadata := none }
      (some { id := 2, user_id := 1, calendar_id := 3, start_ts := 0,
              duration := 10, busy := false, reminder := none,
              recurrence := none, is_service := false, exdates := [],
              metadata := 0, updated := 0 })
      (some ⟨3⟩) 7 true
    = Except.ok { id := 2, user_id := 1, calendar_id := 3, start_ts := 0,
                  duration := 10, busy := false, reminder := some ⟨false⟩,
                  recurrence := none, is_service := false, exdates := [],
                  metadata := 0, updated := 7 } :=
  ⟨rfl, rfl⟩

/-! ## Booking-slot enumeration: step equations and invariants -/

theorem getBookingSlotsGo_zero (events : CompatibleInstances)
    (end_ts duration interval : Int) (cursor : Int) :
    getBookingSlotsGo events end_ts duration interval 0 cursor = none := rfl

theorem getBookingSlotsGo_succ_stop (events : CompatibleInstances)
    (end_ts duration interval : Int) (fuel : Nat) (cursor : Int)
    (hg : ¬ cursor + duration ≤ end_ts) :
    getBookingSlotsGo events end_ts duration interval (fuel + 1) cursor
      = some [] := by
  unfold getBookingSlotsGo
  rw [if_neg hg]

theorem getBookingSlotsGo_succ_found (events : CompatibleInstances)
    (end_ts duration interval : Int) (fuel : Nat) (cursor : Int)
    (rest : List BookingSlot) (e : EventInstance)
    (hg : cursor + duration ≤ end_ts)
    (hrest : getBookingSlotsGo events end_ts duration interval fuel
      (cursor + interval) = some rest)
    (hfind : is_cursor_in_events cursor duration events = some e) :
    getBookingSlotsGo events end_ts duration interval (fuel + 1) cursor
      = some ({ start := cursor, duration := duration,
                available_until := e.end_ts } :: rest) := by
  unfold getBookingSlotsGo
  rw [if_pos hg, hrest, hfind]

theorem getBookingSlotsGo_succ_skip (events : CompatibleInstances)
    (end_ts duration interval : Int) (fuel : Nat) (cursor : Int)
    (rest : List BookingSlot)
    (hg : cursor + duration ≤ end_ts)
    (hrest : getBookingSlotsGo events end_ts duration interval fuel
      (cursor + interval) = some rest)
    (hfind : is_cursor_in_events cursor duration events = none) :
    getBookingSlotsGo events end_ts duration interval (fuel + 1) cursor
      = some rest := by
  unfold getBookingSlotsGo
  rw [if_pos hg, hrest, hfind]

theorem getBookingSlotsGo_spec (events : CompatibleInstances)
    (end_ts duration interval : Int) (hi : 1 ≤ interval) :
    ∀ (fuel : Nat) (cursor : Int) (out : List BookingSlot),
      getBookingSlotsGo events end_ts duration interval fuel cursor
        = some out →
      (∀ s ∈ out,
        (∃ k : Nat, s.start = cursor + k * interval) ∧
        s.duration = duration ∧
        s.start + duration ≤ end_ts ∧
        ∃ e ∈ events, e.start_ts ≤ s.start ∧ s.start + duration ≤ e.end_ts ∧
          s.available_until = e.end_ts) ∧
      out.Pairwise (fun a b => a.start < b.start) := by
  intro fuel
  induction fuel with
  | zero => intro cursor out h; exact absurd h (by simp [getBookingSlotsGo])
  | succ fuel ih =>
    intro cursor out h
    unfold getBookingSlotsGo at h
    by_cases hg : cursor + duration ≤ end_ts
    · rw [if_pos hg] at h
      cases hrest : getBookingSlotsGo events end_ts duration interval fuel
          (cursor + interval) with
      | none => rw [hrest] at h; exact absurd h (by simp)
      | some rest =>
        rw [hrest] at h
        obtain ⟨ihm, ihp⟩ := ih (cursor + interval) rest hrest
        have shift : ∀ s ∈ rest,
            (∃ k : Nat, s.start = cursor + k * interval) ∧
            s.duration = duration ∧ s.start + duration ≤ end_ts ∧
            ∃ e ∈ events, e.start_ts ≤ s.start ∧
              s.start + duration ≤ e.end_ts ∧ s.available_until = e.end_ts := by
          intro s hs
          obtain ⟨⟨k, hk⟩, h2, h3, h4⟩ := ihm s hs
          refine ⟨⟨k + 1, ?_⟩, h2, h3, h4⟩
          rw [hk]; push_cast; ring
        have gt_cursor : ∀ s ∈ rest, cursor < s.start := by
          intro s hs
          obtain ⟨⟨k, hk⟩, -, -, -⟩ := ihm s hs
          have hk0 : 0 ≤ (k : Int) * interval :=
            mul_nonneg (Int.natCast_nonneg k) (by omega)
          omega
        cases hfind : is_cursor_in_events cursor duration events with
        | none =>
          rw [hfind] at h
          have hout : rest = out := by simpa using h
          subst hout
          exact ⟨shift, ihp⟩
        | some e =>
          rw [hfind] at h
          have hout : (⟨cursor, duration, e.end_ts⟩ : BookingSlot) :: rest
              = out := by simpa using h
          subst hout
          have hmem : e ∈ events :=
            List.mem_of_find?_eq_some hfind
          have hp : e.start_ts ≤ cursor ∧ cursor + duration ≤ e.end_ts := by
            have := List.find?_some hfind
            rw [Bool.and_eq_true, decide_eq_true_iff, decide_eq_true_iff]
              at this
            exact this
          constructor
          · intro s hs
            rcases List.mem_cons.mp hs with hs | hs
            · subst hs
              exact ⟨⟨0, by push_cast; ring⟩, rfl, hg,
                e, hmem, hp.1, hp.2, rfl⟩
            · exact shift s hs
          · exact List.pairwise_cons.mpr ⟨fun s hs => gt_cursor s hs, ihp⟩
    · rw [if_neg hg] at h
      have hout : ([] : List BookingSlot) = out := by simpa using h
      subst hout
      exact ⟨by simp, by simp⟩

/-- C4: with `interval ≥ 1`, every slot returned by `get_booking_slots`
starts at `start_ts + k·interval` for some `k ≥ 0`, has the requested
duration, fits before `end_ts`, and lies inside a free interval whose
(unclamped) end is reported as `available_until`; the slots have
strictly increasing starts. -/
theorem claim_C4 (free_events : CompatibleInstances)
    (options : BookingSlotsOptions) (fuel : Nat) (slots : List BookingSlot)
    (hi : 1 ≤ options.interval)
    (h : get_booking_slots fuel free_events options = some slots) :
    (∀ s ∈ slots,
      (∃ k : Nat, s.start = options.start_ts + k * options.interval) ∧
      s.duration = options.duration ∧
      s.start + s.duration ≤ options.end_ts ∧
      ∃ e ∈ free_events, e.start_ts ≤ s.start ∧
        s.start + s.duration ≤ e.end_ts ∧ s.available_until = e.end_ts) ∧
    slots.Pairwise (fun a b => a.start < b.start) := by
  unfold get_booking_slots at h
  by_cases hd : options.duration < 1
  · rw [if_pos hd] at h
    have hout : ([] : List BookingSlot) = slots := by simpa using h
    subst hout
    exact ⟨by simp, by simp⟩
  · rw [if_neg hd] at h
    obtain ⟨hm, hp⟩ := getBookingSlotsGo_spec free_events options.end_ts
      options.duration options.interval hi fuel options.start_ts slots h
    refine ⟨?_, hp⟩
    intro s hs
    obtain ⟨h1, h2, h3, h4⟩ := hm s hs
    rw [← h2] at h3 h4
    exact ⟨h1, h2, h3, h4⟩

/-- C4 (witness): the properties at the `get_booking_slots_from_one_event_3`
unit-test input, where the returned slots are
`[{10,10,42}, {20,10,42}, {30,10,42}]`. -/
theorem claim_C4_witness :
    (1 ≤ (10 : Int)) ∧
    get_booking_slots 64 [⟨2, 42, false⟩] ⟨0, 100, 10, 10⟩
      = some [⟨10, 10, 42⟩, ⟨20, 10, 42⟩, ⟨30, 10, 42⟩] ∧
    ((∀ s ∈ [(⟨10, 10, 42⟩ : BookingSlot), ⟨20, 10, 42⟩, ⟨30, 10, 42⟩],
      (∃ k : Nat, s.start = (0 : Int) + k * 10) ∧
      s.duration = 10 ∧ s.start + s.duration ≤ 100 ∧
      ∃ e ∈ [(⟨2, 42, false⟩ : EventInstance)], e.start_ts ≤ s.start ∧
        s.start + s.duration ≤ e.end_ts ∧ s.available_until = e.end_ts) ∧
    ([(⟨10, 10, 42⟩ : BookingSlot), ⟨20, 10, 42⟩, ⟨30, 10, 42⟩]).Pairwise
      (fun a b => a.start < b.start)) :=
  ⟨by decide, by decide,
    claim_C4 [⟨2, 42, false⟩] ⟨0, 100, 10, 10⟩ 64 _ (by decide) (by decide)⟩

theorem getBookingSlotsGo_nonpos_interval (events : CompatibleInstances)
    (end_ts duration interval : Int) (hi : interval ≤ 0) :
    ∀ (fuel : Nat) (cursor : Int), cursor + duration ≤ end_ts →
      getBookingSlotsGo events end_ts duration interval fuel cursor
        = none := by
  intro fuel
  induction fuel with
  | zero => intro cursor _; rfl
  | succ fuel ih =>
    intro cursor hg
    unfold getBookingSlotsGo
    rw [if_pos hg, ih (cursor + interval) (by omega)]

theorem getBookingSlotsGo_exists_fuel (events : CompatibleInstances)
    (end_ts duration interval : Int) (hi : 1 ≤ interval) :
    ∀ (n : Nat) (cursor : Int), (end_ts - duration - cursor).toNat ≤ n →
      ∃ fuel out, getBookingSlotsGo events end_ts duration interval fuel
        cursor = some out := by
  intro n
  induction n with
  | zero =>
    intro cursor hn
    by_cases hg : cursor + duration ≤ end_ts
    · have hc : end_ts - duration - cursor = 0 := by omega
      have hg2 : ¬ (cursor + interval) + duration ≤ end_ts := by omega
      cases hfind : is_cursor_in_events cursor duration events with
      | some e =>
        exact ⟨2, _, getBookingSlotsGo_succ_found events end_ts duration
          interval 1 cursor [] e hg
          (getBookingSlotsGo_succ_stop events end_ts duration interval 0
            (cursor + interval) hg2) hfind⟩
      | none =>
        exact ⟨2, _, getBookingSlotsGo_succ_skip events end_ts duration
          interval 1 cursor [] hg
          (getBookingSlotsGo_succ_stop events end_ts duration interval 0
            (cursor + interval) hg2) hfind⟩
    · exact ⟨1, [], getBookingSlotsGo_succ_stop events end_ts duration
        interval 0 cursor hg⟩
  | succ n ih =>
    intro cursor hn
    by_cases hg : cursor + duration ≤ end_ts
    · obtain ⟨fuel, out, hout⟩ := ih (cursor + interval) (by omega)
      cases hfind : is_cursor_in_events cursor duration events with
      | some e =>
        exact ⟨fuel + 1, _, getBookingSlotsGo_succ_found events end_ts
          duration interval fuel cursor out e hg hout hfind⟩
      | none =>
        exact ⟨fuel + 1, _, getBookingSlotsGo_succ_skip events end_ts
          duration interval fuel cursor out hg hout hfind⟩
    · exact ⟨1, [], getBookingSlotsGo_succ_stop events end_ts duration
        interval 0 cursor hg⟩

/-- C10: the cursor loop of `get_booking_slots` terminates exactly when
`interval ≥ 1`, or `duration < 1`, or `start_ts + duration > end_ts`;
for every other input (`interval ≤ 0`, `duration ≥ 1`,
`start_ts + duration ≤ end_ts`) the loop runs forever — the spec's
interval bounds (`validate_slots_interval`) are enforced only at the
service booking-slot query boundary, not by this function. -/
theorem claim_C10 (free_events : CompatibleInstances)
    (options : BookingSlotsOptions) :
    (∃ fuel slots, get_booking_slots fuel free_events options = some slots)
      ↔ (1 ≤ options.interval ∨ options.duration < 1 ∨
          options.end_ts < options.start_ts + options.duration) := by
  constructor
  · intro ⟨fuel, slots, h⟩
    by_contra hcon
    push_neg at hcon
    obtain ⟨hi, hd, hse⟩ := hcon
    unfold get_booking_slots at h
    rw [if_neg (by omega)] at h
    rw [getBookingSlotsGo_nonpos_interval free_events options.end_ts
      options.duration options.interval (by omega) fuel options.start_ts
      (by omega)] at h
    exact absurd h (by simp)
  · intro hcond
    by_cases hd : options.duration < 1
    · exact ⟨0, [], by unfold get_booking_slots; rw [if_pos hd]⟩
    · by_cases hse : options.start_ts + options.duration ≤ options.end_ts
      · have hi : 1 ≤ options.interval := by
          rcases hcond with h | h | h
          · exact h
          · exact absurd h hd
          · omega
        obtain ⟨fuel, out, hout⟩ := getBookingSlotsGo_exists_fuel
          free_events options.end_ts options.duration options.interval hi
          (options.end_ts - options.duration - options.start_ts).toNat
          options.start_ts le_rfl
        exact ⟨fuel, out, by unfold get_booking_slots; rw [if_neg hd]; exact hout⟩
      · exact ⟨1, [], by
          unfold get_booking_slots
          rw [if_neg hd]
          exact getBookingSlotsGo_succ_stop free_events options.end_ts
            options.duration options.interval 0 options.start_ts hse⟩

/-! ## Interval subtraction: basic facts -/

/-- The claim C1 conclusion: two intervals do not overlap except
possibly touching at an endpoint. -/
def NoOv (p b : EventInstance) : Prop :=
  p.end_ts ≤ b.start_ts ∨ b.end_ts ≤ p.start_ts

instance (p b : EventInstance) : Decidable (NoOv p b) := by
  unfold NoOv; infer_instance

theorem new_singleton (x : EventInstance) :
    CompatibleInstances.new [x] = [x] := rfl

theorem new_pair (x y : EventInstance) (hxy : x.start_ts ≤ y.start_ts)
    (hnm : EventInstance.merge y x = none) :
    CompatibleInstances.new [x, y] = [x, y] := by
  unfold CompatibleInstances.new sortByKey
  have hsort : List.insertionSort
      (fun a b => a.start_ts ≤ b.start_ts) [x, y] = [x, y] := by
    simp [List.insertionSort, List.orderedInsert, hxy]
  rw [hsort]
  simp only [List.foldl_cons, List.foldl_nil]
  have h1 : CompatibleInstances.newFold [] x = [x] := rfl
  rw [h1]
  unfold CompatibleInstances.newFold
  simp [hnm]

theorem remove_instance_noOverlap {f b : EventInstance}
    (h : EventInstance.remove_instance f b = SubtractInstanceResult.noOverlap) :
    b.end_ts < f.start_ts ∨ f.end_ts < b.start_ts ∨ f.start_ts = b.end_ts := by
  unfold EventInstance.remove_instance at h
  split_ifs at h with h1 h2 h3 h4
  · rcases h1 with h1 | h1
    · rw [EventInstance.has_overlap, Bool.and_eq_false_iff] at h1
      rcases h1 with h1 | h1 <;> rw [decide_eq_false_iff_not, not_le] at h1
      · exact Or.inl h1
      · exact Or.inr (Or.inl h1)
    · exact Or.inr (Or.inr h1)

theorem remove_instance_overlap_core {f b : EventInstance}
    {r : SubtractInstanceResult}
    (h : EventInstance.remove_instance f b = r)
    (hne : r ≠ SubtractInstanceResult.noOverlap) :
    f.start_ts < b.end_ts ∧ b.start_ts ≤ f.end_ts := by
  unfold EventInstance.remove_instance at h
  split_ifs at h with h1 h2 h3 h4
  · exact absurd h.symm hne
  all_goals {
    simp only [not_or, Bool.not_eq_false, EventInstance.has_overlap,
      Bool.and_eq_true, decide_eq_true_iff] at h1
    obtain ⟨⟨ha, hb2⟩, hc⟩ := h1
    constructor
    · omega
    · exact hb2 }

theorem remove_instance_empty_inv {f b : EventInstance}
    (h : EventInstance.remove_instance f b = SubtractInstanceResult.empty) :
    b.start_ts ≤ f.start_ts ∧ f.end_ts ≤ b.end_ts ∧ f.start_ts < b.end_ts ∧
      b.start_ts ≤ f.end_ts := by
  have core := remove_instance_overlap_core h (by decide)
  unfold EventInstance.remove_instance at h
  split_ifs at h with h1 h2 h3 h4 <;> try simp at h
  exact ⟨h2.1, h2.2, core⟩

theorem remove_instance_overlapEnd_inv {f b : EventInstance}
    {e : CompatibleInstances}
    (h : EventInstance.remove_instance f b
      = SubtractInstanceResult.overlapEnd e) :
    e = [⟨f.start_ts, b.start_ts, false⟩] ∧ f.start_ts < b.start_ts ∧
      f.end_ts ≤ b.end_ts ∧ f.start_ts < b.end_ts ∧ b.start_ts ≤ f.end_ts := by
  have core := remove_instance_overlap_core h (by simp)
  unfold EventInstance.remove_instance at h
  split_ifs at h with h1 h2 h3 h4 <;> try simp at h
  have hbs : f.start_ts < b.start_ts := by
    rw [ge_iff_le, not_le] at h4; exact h4
  have hbe : f.end_ts ≤ b.end_ts := by
    rw [not_and_or] at h3
    rcases h3 with h3 | h3
    · exact absurd hbs (by omega)
    · omega
  rw [new_singleton] at h
  exact ⟨h.symm, hbs, hbe, core⟩

theorem remove_instance_overlapBeginning_inv {f b : EventInstance}
    {e : CompatibleInstances}
    (h : EventInstance.remove_instance f b
      = SubtractInstanceResult.overlapBeginning e) :
    e = [⟨b.end_ts, f.end_ts, false⟩] ∧ b.start_ts ≤ f.start_ts ∧
      b.end_ts < f.end_ts ∧ f.start_ts < b.end_ts := by
  have core := remove_instance_overlap_core h (by simp)
  unfold EventInstance.remove_instance at h
  split_ifs at h with h1 h2 h3 h4 <;> try simp at h
  have hbs : b.start_ts ≤ f.start_ts := h4
  have hbe : b.end_ts < f.end_ts := by
    rw [not_and_or] at h2
    rcases h2 with h2 | h2
    · exact absurd hbs (by omega)
    · omega
  rw [new_singleton] at h
  exact ⟨h.symm, hbs, hbe, core.1⟩

theorem remove_instance_split_inv {f b : EventInstance}
    {e : CompatibleInstances} (hbv : b.start_ts < b.end_ts)
    (h : EventInstance.remove_instance f b = SubtractInstanceResult.split e) :
    e = [⟨f.start_ts, b.start_ts, false⟩, ⟨b.end_ts, f.end_ts, false⟩] ∧
      f.start_ts < b.start_ts ∧ b.end_ts < f.end_ts ∧
      f.start_ts < b.end_ts := by
  have core := remove_instance_overlap_core h (by simp)
  unfold EventInstance.remove_instance at h
  split_ifs at h with h1 h2 h3 h4 <;> try simp at h
  have hpair : CompatibleInstances.new
      [⟨f.start_ts, b.start_ts, false⟩, ⟨b.end_ts, f.end_ts, false⟩]
      = [⟨f.start_ts, b.start_ts, false⟩, ⟨b.end_ts, f.end_ts, false⟩] := by
    apply new_pair
    · show f.start_ts ≤ b.end_ts
      omega
    · unfold EventInstance.merge EventInstance.can_merge
        EventInstance.has_overlap
      have hno : ¬ (b.end_ts ≤ b.start_ts) := by omega
      simp [hno]
  rw [hpair] at h
  exact ⟨h.symm, h3.1, h3.2, core.1⟩

/-! ## Deque-operation helpers -/

theorem push_back_nil (x : EventInstance) :
    CompatibleInstances.push_back [] x = [x] := rfl

theorem push_back_keep {l : List EventInstance} {last x : EventInstance}
    (hl : l.getLast? = some last) (h : x.start_ts < last.end_ts) :
    CompatibleInstances.push_back l x = l := by
  unfold CompatibleInstances.push_back
  simp only [hl]
  rw [if_pos (show last.end_ts > x.start_ts by omega)]

theorem push_back_app {l : List EventInstance} {last x : EventInstance}
    (hl : l.getLast? = some last) (h : last.end_ts ≤ x.start_ts) :
    CompatibleInstances.push_back l x = l ++ [x] := by
  unfold CompatibleInstances.push_back
  simp only [hl]
  rw [if_neg (show ¬ last.end_ts > x.start_ts by omega)]

theorem push_front_cons_add {r0 x : EventInstance} {rt : List EventInstance}
    (h : ¬ r0.start_ts < x.end_ts) :
    CompatibleInstances.push_front (r0 :: rt) x = x :: r0 :: rt := by
  simp [CompatibleInstances.push_front, h]

theorem push_back_ne_nil (l : List EventInstance) (x : EventInstance) :
    CompatibleInstances.push_back l x ≠ [] := by
  unfold CompatibleInstances.push_back
  cases hl : l.getLast? with
  | none =>
    simp
  | some last =>
    simp only []
    split_ifs with h
    · intro hc
      rw [hc] at hl
      simp at hl
    · simp

theorem mem_push_back {l : List EventInstance} {x y : EventInstance}
    (h : y ∈ CompatibleInstances.push_back l x) : y ∈ l ∨ y = x := by
  unfold CompatibleInstances.push_back at h
  cases hl : l.getLast? with
  | none =>
    rw [hl] at h
    rcases List.mem_append.mp h with h | h
    · exact Or.inl h
    · exact Or.inr (List.mem_singleton.mp h)
  | some last =>
    rw [hl] at h
    simp only [] at h
    split_ifs at h with hc
    · exact Or.inl h
    · rcases List.mem_append.mp h with h | h
      · exact Or.inl h
      · exact Or.inr (List.mem_singleton.mp h)

theorem extend_nil_right (acc : CompatibleInstances) :
    CompatibleInstances.extend acc [] = acc := rfl

theorem extend_cons (acc : CompatibleInstances) (y : EventInstance)
    (l : List EventInstance) :
    CompatibleInstances.extend acc (y :: l)
      = CompatibleInstances.extend (CompatibleInstances.push_back acc y) l :=
  rfl

theorem extend_single (acc : CompatibleInstances) (y : EventInstance) :
    CompatibleInstances.extend acc [y]
      = CompatibleInstances.push_back acc y := rfl

theorem mem_extend : ∀ (l acc : List EventInstance) (y : EventInstance),
    y ∈ CompatibleInstances.extend acc l → y ∈ acc ∨ y ∈ l := by
  intro l
  induction l with
  | nil => intro acc y h; exact Or.inl h
  | cons z l ih =>
    intro acc y h
    rw [extend_cons] at h
    rcases ih _ y h with h | h
    · rcases mem_push_back h with h | h
      · exact Or.inl h
      · exact Or.inr (by simp [h])
    · exact Or.inr (by simp [h])

theorem extend_ne_nil : ∀ (l acc : List EventInstance),
    acc ≠ [] ∨ l ≠ [] → CompatibleInstances.extend acc l ≠ [] := by
  intro l
  induction l with
  | nil =>
    intro acc h
    rcases h with h | h
    · exact h
    · exact absurd rfl h
  | cons z l ih =>
    intro acc _
    rw [extend_cons]
    exact ih _ (Or.inl (push_back_ne_nil acc z))

/-! ## Index facts on compatible (sorted, pairwise disjoint) deques -/

theorem gapFact {bs : List EventInstance} (hbs : CompatSorted bs)
    {i j : Nat} {a b : EventInstance} (ha : bs[i]? = some a)
    (hb : bs[j]? = some b) (hij : i < j) : a.end_ts < b.start_ts := by
  rw [List.getElem?_eq_some] at ha hb
  obtain ⟨hi, ha⟩ := ha
  obtain ⟨hj, hb⟩ := hb
  have := List.pairwise_iff_getElem.mp hbs i j hi hj hij
  rw [ha, hb] at this
  exact this

theorem endsMono {bs : List EventInstance} (hbs : CompatSorted bs)
    (hbv : AllValid bs) {i j : Nat} {a b : EventInstance}
    (ha : bs[i]? = some a) (hb : bs[j]? = some b) (hij : i ≤ j) :
    a.end_ts ≤ b.end_ts := by
  rcases Nat.lt_or_ge i j with h | h
  · have h1 := gapFact hbs ha hb h
    have h2 : ValidInstance b := hbv b (List.getElem?_mem hb)
    unfold ValidInstance at h2
    omega
  · have hij' : i = j := by omega
    subst hij'
    rw [ha] at hb
    rw [Option.some_inj.mp hb]

/-- A remaining free piece `p` produced while reducing the free instance
`f` against the busy deque `bs`: a valid sub-interval of `f` that does
not overlap any busy instance (except possibly touching). -/
def GoodPiece (bs : List EventInstance) (f p : EventInstance) : Prop :=
  ValidInstance p ∧ f.start_ts ≤ p.start_ts ∧ p.end_ts ≤ f.end_ts ∧
    ∀ b ∈ bs, NoOv p b

/-- `f` starts outside the interior of every busy instance. -/
def StartFree (bs : List EventInstance) (f : EventInstance) : Prop :=
  ∀ b ∈ bs, b.end_ts ≤ f.start_ts ∨ f.start_ts < b.start_ts

theorem mem_index {bs : List EventInstance} {b : EventInstance}
    (h : b ∈ bs) : ∃ j : Nat, bs[j]? = some b := by
  obtain ⟨i, hi, heq⟩ := List.mem_iff_getElem.mp h
  refine ⟨i, ?_⟩
  rw [List.getElem?_eq_getElem hi, heq]

theorem removeGo_terminal (bs : List EventInstance) (f : EventInstance)
    (skip pos : Nat) (conflict : Bool) (acc out : List EventInstance)
    (hfv : ValidInstance f)
    (H1 : ∀ p ∈ acc, GoodPiece bs f p)
    (H2 : conflict = false → acc = [] ∧
      ∀ (j : Nat) (b : EventInstance), j < skip + pos → bs[j]? = some b →
        b.end_ts ≤ f.start_ts)
    (hrest : ∀ (j : Nat) (b' : EventInstance), skip + pos ≤ j →
      bs[j]? = some b' → f.end_ts ≤ b'.start_ts)
    (hout : (if conflict then acc
      else CompatibleInstances.push_back acc f) = out) :
    (∀ p ∈ out, GoodPiece bs f p) ∧
    (StartFree bs f → (conflict = true → acc ≠ []) → out ≠ []) := by
  cases conflict with
  | true =>
    rw [if_pos rfl] at hout
    subst hout
    exact ⟨H1, fun _ hc => hc rfl⟩
  | false =>
    rw [if_neg (by simp)] at hout
    obtain ⟨hacc, hreg⟩ := H2 rfl
    subst hacc
    rw [push_back_nil] at hout
    subst hout
    constructor
    · intro p hp
      have hpf : p = f := List.mem_singleton.mp hp
      rw [hpf]
      refine ⟨hfv, le_refl _, le_refl _, ?_⟩
      intro b' hb'
      obtain ⟨j, hj⟩ := mem_index hb'
      rcases Nat.lt_or_ge j (skip + pos) with hlt | hge
      · exact Or.inr (hreg j b' hlt hj)
      · exact Or.inl (hrest j b' hge hj)
    · intro _ _
      simp

theorem removeInstancesGo_spec (bs : List EventInstance)
    (hbs : CompatSorted bs) (hbv : AllValid bs) :
    ∀ (fuel : Nat) (f : EventInstance) (skip pos : Nat) (conflict : Bool)
      (acc out : List EventInstance),
      ValidInstance f →
      (∀ p ∈ acc, GoodPiece bs f p) →
      (conflict = false → acc = [] ∧
        ∀ (j : Nat) (b : EventInstance), j < skip + pos → bs[j]? = some b →
          b.end_ts ≤ f.start_ts) →
      (conflict = true → ∃ (j : Nat) (b : EventInstance), j < skip + pos ∧
        bs[j]? = some b ∧ f.start_ts < b.end_ts) →
      (acc = [] →
        (∀ (j : Nat) (b : EventInstance), j < skip + pos → bs[j]? = some b →
          b.end_ts ≤ f.start_ts) ∨
        (∃ (j : Nat) (b : EventInstance), j < skip + pos ∧ bs[j]? = some b ∧
          b.start_ts ≤ f.start_ts ∧ f.end_ts ≤ b.end_ts)) →
      EventInstance.removeInstancesGo fuel bs f skip pos conflict acc
        = RunResult.ok out →
      (∀ p ∈ out, GoodPiece bs f p) ∧
      (StartFree bs f → (conflict = true → acc ≠ []) → out ≠ []) := by
  intro fuel
  induction fuel with
  | zero =>
    intro f skip pos conflict acc out _ _ _ _ _ h
    exact absurd h (by simp [EventInstance.removeInstancesGo])
  | succ fuel ih =>
    intro f skip pos conflict acc out hfv H1 H2 H3 H4 h
    unfold EventInstance.removeInstancesGo at h
    cases hb : bs[skip + pos]? with
    | none =>
      rw [hb] at h
      simp only [] at h
      have hlen : bs.length ≤ skip + pos := by
        rw [← List.getElem?_eq_none_iff]
        exact hb
      refine removeGo_terminal bs f skip pos conflict acc out hfv H1 H2
        ?_ (by injection h)
      intro j b' hge hj
      rw [List.getElem?_eq_none (show bs.length ≤ j by omega)] at hj
      simp at hj
    | some b =>
      rw [hb] at h
      simp only [] at h
      have hbmem : b ∈ bs := List.getElem?_mem hb
      have hbvb : b.start_ts < b.end_ts := hbv b hbmem
      by_cases hbreak : b.start_ts ≥ f.end_ts
      · rw [if_pos hbreak] at h
        refine removeGo_terminal bs f skip pos conflict acc out hfv H1 H2
          ?_ (by injection h)
        intro j b' hge hj
        have hs : b.end_ts ≤ b'.end_ts := endsMono hbs hbv hb hj hge
        rcases Nat.eq_or_lt_of_le hge with heq | hlt
        · rw [← heq] at hj
          rw [hb] at hj
          rw [Option.some_inj.mp hj] at hbreak
          omega
        · have := gapFact hbs hb hj hlt
          omega
      · rw [if_neg hbreak] at h
        have hblt : b.start_ts < f.end_ts := by omega
        have hfv' : f.start_ts < f.end_ts := hfv
        cases hr : EventInstance.remove_instance f b with
        | noOverlap =>
          rw [hr] at h
          simp only [] at h
          have hinv := remove_instance_noOverlap hr
          have hbe : b.end_ts ≤ f.start_ts := by
            rcases hinv with h1 | h1 | h1 <;> omega
          have hcf : conflict = false := by
            by_contra hcc
            rw [Bool.not_eq_false] at hcc
            obtain ⟨j, bj, hjlt, hjget, hjov⟩ := H3 hcc
            have hgap := gapFact hbs hjget hb hjlt
            omega
          obtain ⟨hacc, hreg⟩ := H2 hcf
          have hreg' : ∀ (j : Nat) (b' : EventInstance), j < skip + (pos + 1) →
              bs[j]? = some b' → b'.end_ts ≤ f.start_ts := by
            intro j b' hjlt hjget
            rcases Nat.lt_or_ge j (skip + pos) with hlt | hge2
            · exact hreg j b' hlt hjget
            · have hjeq : j = skip + pos := by omega
              rw [hjeq, hb] at hjget
              rw [← Option.some_inj.mp hjget]
              exact hbe
          have hres := ih f skip (pos + 1) false acc out hfv H1
            (fun _ => ⟨hacc, hreg'⟩) (fun hx => nomatch hx)
            (fun _ => Or.inl hreg') h
          exact ⟨hres.1, fun hsf _ => hres.2 hsf (fun hx => nomatch hx)⟩
        | empty =>
          rw [hr] at h
          simp only [] at h
          obtain ⟨he1, he2, he3, he4⟩ := remove_instance_empty_inv hr
          have hres := ih f skip (pos + 1) true acc out hfv H1
            (fun hx => nomatch hx)
            (fun _ => ⟨skip + pos, b, by omega, hb, he3⟩)
            (fun hacc => by
              rcases H4 hacc with hreg | ⟨j, bj, hjlt, hjget, hc1, hc2⟩
              · exact Or.inr ⟨skip + pos, b, by omega, hb, he1, he2⟩
              · exact Or.inr ⟨j, bj, by omega, hjget, hc1, hc2⟩) h
          refine ⟨hres.1, ?_⟩
          intro hsf _
          exfalso
          rcases hsf b hbmem with h1 | h1 <;> omega
        | overlapEnd e =>
          obtain ⟨hee, ho1, ho2, ho3, ho4⟩ := remove_instance_overlapEnd_inv hr
          rw [hr, hee] at h
          simp only [] at h
          rw [extend_single] at h
          have hxgoodOf : (∀ (j : Nat) (b' : EventInstance), j < skip + pos →
              bs[j]? = some b' → b'.end_ts ≤ f.start_ts) →
              GoodPiece bs f ⟨f.start_ts, b.start_ts, false⟩ := by
            intro hreg
            refine ⟨ho1, le_refl _, ho4, ?_⟩
            intro b' hb'
            obtain ⟨j, hj⟩ := mem_index hb'
            rcases Nat.lt_trichotomy j (skip + pos) with hlt | heq | hgt
            · exact Or.inr (hreg j b' hlt hj)
            · rw [heq, hb] at hj
              rw [← Option.some_inj.mp hj]
              exact Or.inl (le_refl _)
            · have hgap := gapFact hbs hb hj hgt
              exact Or.inl (by show b.start_ts ≤ b'.start_ts; omega)
          by_cases hacc0 : acc = []
          · rw [hacc0, push_back_nil] at h
            have hreg : ∀ (j : Nat) (b' : EventInstance), j < skip + pos →
                bs[j]? = some b' → b'.end_ts ≤ f.start_ts := by
              rcases H4 hacc0 with hr1 | ⟨j, bj, hjlt, hjget, hc1, hc2⟩
              · exact hr1
              · exfalso
                have hgap := gapFact hbs hjget hb hjlt
                omega
            have hxgood := hxgoodOf hreg
            have hres := ih f skip (pos + 1) true
              [⟨f.start_ts, b.start_ts, false⟩] out hfv
              (fun p hp => by
                rw [List.mem_singleton.mp hp]
                exact hxgood)
              (fun hx => nomatch hx)
              (fun _ => ⟨skip + pos, b, by omega, hb, ho3⟩)
              (fun hc => absurd hc (by simp)) h
            exact ⟨hres.1, fun hsf _ => hres.2 hsf (fun _ => by simp)⟩
          · obtain ⟨last, hlast⟩ : ∃ last, acc.getLast? = some last := by
              cases hl : acc.getLast? with
              | none => exact absurd (List.getLast?_eq_none_iff.mp hl) hacc0
              | some last => exact ⟨last, rfl⟩
            have hlmem : last ∈ acc := List.mem_of_mem_getLast? (by simp [hlast])
            obtain ⟨hlv, hlfs, hlfe, hlno⟩ := H1 last hlmem
            have hlv' : last.start_ts < last.end_ts := hlv
            have hkeep : CompatibleInstances.push_back acc
                ⟨f.start_ts, b.start_ts, false⟩ = acc :=
              push_back_keep hlast (by show f.start_ts < last.end_ts; omega)
            rw [hkeep] at h
            have hres := ih f skip (pos + 1) true acc out hfv H1
              (fun hx => nomatch hx)
              (fun _ => ⟨skip + pos, b, by omega, hb, ho3⟩)
              (fun hc => absurd hc hacc0) h
            exact ⟨hres.1, fun hsf _ => hres.2 hsf (fun _ => hacc0)⟩
        | overlapBeginning e =>
          obtain ⟨hee, hob1, hob2, hob3⟩ :=
            remove_instance_overlapBeginning_inv hr
          rw [hr, hee] at h
          simp only [] at h
          cases hrec : EventInstance.removeInstancesGo fuel bs
              ⟨b.end_ts, f.end_ts, false⟩ (pos + 1) 0 false [] with
          | assertFailed => rw [hrec] at h; simp at h
          | fuelOut => rw [hrec] at h; simp at h
          | ok r =>
            rw [hrec] at h
            simp only [] at h
            have hxv : ValidInstance (⟨b.end_ts, f.end_ts, false⟩
                : EventInstance) := hob2
            have hregn : ∀ (j : Nat) (b' : EventInstance), j < pos + 1 + 0 →
                bs[j]? = some b' → b'.end_ts ≤ b.end_ts := by
              intro j b' hjlt hjget
              exact endsMono hbs hbv hjget hb (by omega)
            have hres0 := ih ⟨b.end_ts, f.end_ts, false⟩ (pos + 1) 0 false []
              r hxv (by simp) (fun _ => ⟨rfl, hregn⟩) (fun hx => nomatch hx)
              (fun _ => Or.inl hregn) hrec
            have hsfx : StartFree bs (⟨b.end_ts, f.end_ts, false⟩
                : EventInstance) := by
              intro b' hb'
              obtain ⟨j, hj⟩ := mem_index hb'
              rcases Nat.lt_or_ge j (skip + pos + 1) with hlt | hge2
              · exact Or.inl (endsMono hbs hbv hj hb (by omega))
              · have hgap := gapFact hbs hb hj (by omega)
                exact Or.inr (by show b.end_ts < b'.start_ts; omega)
            have hrne : r ≠ [] := hres0.2 hsfx (fun hx => nomatch hx)
            have hrgood : ∀ p ∈ r, GoodPiece bs f p := by
              intro p hp
              obtain ⟨hpv, hps, hpe, hpno⟩ := hres0.1 p hp
              refine ⟨hpv, ?_, hpe, hpno⟩
              show f.start_ts ≤ p.start_ts
              have : b.end_ts ≤ p.start_ts := hps
              omega
            have hres := ih f skip (pos + 1) true
              (CompatibleInstances.extend acc r) out hfv
              (fun p hp => by
                rcases mem_extend r acc p hp with hp | hp
                · exact H1 p hp
                · exact hrgood p hp)
              (fun hx => nomatch hx)
              (fun _ => ⟨skip + pos, b, by omega, hb, hob3⟩)
              (fun hc => absurd hc (extend_ne_nil r acc (Or.inr hrne))) h
            exact ⟨hres.1, fun hsf _ =>
              hres.2 hsf (fun _ => extend_ne_nil r acc (Or.inr hrne))⟩
        | split e =>
          obtain ⟨hee, hs1, hs2, hs3⟩ := remove_instance_split_inv hbvb hr
          rw [hr, hee] at h
          simp only [] at h
          cases hrec : EventInstance.removeInstancesGo fuel bs
              ⟨b.end_ts, f.end_ts, false⟩ (pos + 1) 0 false [] with
          | assertFailed => rw [hrec] at h; simp at h
          | fuelOut => rw [hrec] at h; simp at h
          | ok r =>
            rw [hrec] at h
            simp only [] at h
            have hxv : ValidInstance (⟨b.end_ts, f.end_ts, false⟩
                : EventInstance) := hs2
            have hregn : ∀ (j : Nat) (b' : EventInstance), j < pos + 1 + 0 →
                bs[j]? = some b' → b'.end_ts ≤ b.end_ts := by
              intro j b' hjlt hjget
              exact endsMono hbs hbv hjget hb (by omega)
            have hres0 := ih ⟨b.end_ts, f.end_ts, false⟩ (pos + 1) 0 false []
              r hxv (by simp) (fun _ => ⟨rfl, hregn⟩) (fun hx => nomatch hx)
              (fun _ => Or.inl hregn) hrec
            have hsfx : StartFree bs (⟨b.end_ts, f.end_ts, false⟩
                : EventInstance) := by
              intro b' hb'
              obtain ⟨j, hj⟩ := mem_index hb'
              rcases Nat.lt_or_ge j (skip + pos + 1) with hlt | hge2
              · exact Or.inl (endsMono hbs hbv hj hb (by omega))
              · have hgap := gapFact hbs hb hj (by omega)
                exact Or.inr (by show b.end_ts < b'.start_ts; omega)
            have hrne : r ≠ [] := hres0.2 hsfx (fun hx => nomatch hx)
            have hrgood : ∀ p ∈ r, GoodPiece bs f p := by
              intro p hp
              obtain ⟨hpv, hps, hpe, hpno⟩ := hres0.1 p hp
              refine ⟨hpv, ?_, hpe, hpno⟩
              show f.start_ts ≤ p.start_ts
              have : b.end_ts ≤ p.start_ts := hps
              omega
            obtain ⟨r0, rtail, hrc⟩ := List.exists_cons_of_ne_nil hrne
            have hr0mem : r0 ∈ r := by rw [hrc]; simp
            have hr0 : b.end_ts ≤ r0.start_ts := (hres0.1 r0 hr0mem).2.1
            have hpf : CompatibleInstances.push_front r
                ⟨f.start_ts, b.start_ts, false⟩
                = ⟨f.start_ts, b.start_ts, false⟩ :: r := by
              rw [hrc]
              apply push_front_cons_add
              show ¬ r0.start_ts < b.start_ts
              omega
            rw [hpf, extend_cons] at h
            have hxgoodOf : (∀ (j : Nat) (b' : EventInstance), j < skip + pos →
                bs[j]? = some b' → b'.end_ts ≤ f.start_ts) →
                GoodPiece bs f ⟨f.start_ts, b.start_ts, false⟩ := by
              intro hreg
              refine ⟨hs1, le_refl _, by show b.start_ts ≤ f.end_ts; omega, ?_⟩
              intro b' hb'
              obtain ⟨j, hj⟩ := mem_index hb'
              rcases Nat.lt_trichotomy j (skip + pos) with hlt | heq | hgt
              · exact Or.inr (hreg j b' hlt hj)
              · rw [heq, hb] at hj
                rw [← Option.some_inj.mp hj]
                exact Or.inl (le_refl _)
              · have hgap := gapFact hbs hb hj hgt
                exact Or.inl (by show b.start_ts ≤ b'.start_ts; omega)
            by_cases hacc0 : acc = []
            · rw [hacc0, push_back_nil] at h
              have hreg : ∀ (j : Nat) (b' : EventInstance), j < skip + pos →
                  bs[j]? = some b' → b'.end_ts ≤ f.start_ts := by
                rcases H4 hacc0 with hr1 | ⟨j, bj, hjlt, hjget, hc1, hc2⟩
                · exact hr1
                · exfalso
                  have hgap := gapFact hbs hjget hb hjlt
                  omega
              have hxgood := hxgoodOf hreg
              have hres := ih f skip (pos + 1) true
                (CompatibleInstances.extend [⟨f.start_ts, b.start_ts, false⟩]
                  r) out hfv
                (fun p hp => by
                  rcases mem_extend r [⟨f.start_ts, b.start_ts, false⟩] p hp
                    with hp | hp
                  · rw [List.mem_singleton.mp hp]
                    exact hxgood
                  · exact hrgood p hp)
                (fun hx => nomatch hx)
                (fun _ => ⟨skip + pos, b, by omega, hb, hs3⟩)
                (fun hc => absurd hc (extend_ne_nil r _ (Or.inl (by simp)))) h
              exact ⟨hres.1, fun hsf _ =>
                hres.2 hsf (fun _ => extend_ne_nil r _ (Or.inl (by simp)))⟩
            · obtain ⟨last, hlast⟩ : ∃ last, acc.getLast? = some last := by
                cases hl : acc.getLast? with
                | none => exact absurd (List.getLast?_eq_none_iff.mp hl) hacc0
                | some last => exact ⟨last, rfl⟩
              have hlmem : last ∈ acc :=
                List.mem_of_mem_getLast? (by simp [hlast])
              obtain ⟨hlv, hlfs, hlfe, hlno⟩ := H1 last hlmem
              have hlv' : last.start_ts < last.end_ts := hlv
              have hkeep : CompatibleInstances.push_back acc
                  ⟨f.start_ts, b.start_ts, false⟩ = acc :=
                push_back_keep hlast (by show f.start_ts < last.end_ts; omega)
              rw [hkeep] at h
              have hres := ih f skip (pos + 1) true
                (CompatibleInstances.extend acc r) out hfv
                (fun p hp => by
                  rcases mem_extend r acc p hp with hp | hp
                  · exact H1 p hp
                  · exact hrgood p hp)
                (fun hx => nomatch hx)
                (fun _ => ⟨skip + pos, b, by omega, hb, hs3⟩)
                (fun hc => absurd hc (extend_ne_nil r acc (Or.inl hacc0))) h
              exact ⟨hres.1, fun hsf _ =>
                hres.2 hsf (fun _ => extend_ne_nil r acc (Or.inl hacc0))⟩

theorem remove_intances_spec (bs : List EventInstance)
    (hbs : CompatSorted bs) (hbv : AllValid bs) :
    ∀ (free : List EventInstance) (fuel : Nat) (out : List EventInstance),
      AllValid free →
      CompatibleInstances.remove_intances fuel free bs 0 = RunResult.ok out →
      ∀ p ∈ out, ∃ f ∈ free, GoodPiece bs f p := by
  intro free
  induction free with
  | nil =>
    intro fuel out _ h p hp
    unfold CompatibleInstances.remove_intances at h
    have hout : ([] : List EventInstance) = out := by injection h
    rw [← hout] at hp
    exact absurd hp (List.not_mem_nil p)
  | cons f rest ih =>
    intro fuel out hv h p hp
    unfold CompatibleInstances.remove_intances at h
    cases hf : EventInstance.remove_instances fuel f bs 0 with
    | assertFailed => rw [hf] at h; simp at h
    | fuelOut => rw [hf] at h; simp at h
    | ok r =>
      rw [hf] at h
      simp only [] at h
      cases hrest : CompatibleInstances.remove_intances fuel rest bs 0 with
      | assertFailed => rw [hrest] at h; simp at h
      | fuelOut => rw [hrest] at h; simp at h
      | ok rs =>
        rw [hrest] at h
        simp only [] at h
        have hout : r ++ rs = out := by injection h
        rw [← hout] at hp
        rcases List.mem_append.mp hp with hp | hp
        · have hgo := removeInstancesGo_spec bs hbs hbv fuel f 0 0 false [] r
            (hv f (by simp)) (by simp)
            (fun _ => ⟨rfl, fun j b' hj _ => absurd hj (by omega)⟩)
            (fun hx => nomatch hx)
            (fun _ => Or.inl (fun j b' hj _ => absurd hj (by omega))) hf
          exact ⟨f, by simp, hgo.1 p hp⟩
        · obtain ⟨f', hf', hgp⟩ := ih fuel rs
            (fun x hx => hv x (by simp [hx])) hrest p hp
          exact ⟨f', by simp [hf'], hgp⟩

/-- C1: for every free and busy `CompatibleInstances` (sorted, pairwise
disjoint deques of valid instances), every interval remaining after
`free.remove_intances(&busy, 0)` is disjoint from every busy interval,
except possibly touching at an endpoint. -/
theorem claim_C1 (free busy : List EventInstance) (fuel : Nat)
    (out : List EventInstance)
    (hfv : AllValid free) (hfs : CompatSorted free)
    (hbv : AllValid busy) (hbs : CompatSorted busy)
    (h : CompatibleInstances.remove_intances fuel free busy 0
      = RunResult.ok out) :
    ∀ f ∈ out, ∀ b ∈ busy,
      f.end_ts ≤ b.start_ts ∨ b.end_ts ≤ f.start_ts := by
  intro p hp b hb
  obtain ⟨f, hf, hgp⟩ :=
    remove_intances_spec busy hbs hbv free fuel out hfv h p hp
  exact hgp.2.2.2 b hb

/-- C1 (witness): the disjointness conclusion at the
`remove_busy_from_free_test_1` unit-test input. -/
theorem claim_C1_witness :
    CompatibleInstances.remove_intances 32 [⟨5, 100, false⟩]
      [⟨2, 40, true⟩, ⟨50, 70, true⟩, ⟨72, 75, true⟩] 0
      = RunResult.ok [⟨40, 50, false⟩, ⟨70, 72, false⟩, ⟨75, 100, false⟩] ∧
    (∀ f ∈ [(⟨40, 50, false⟩ : EventInstance), ⟨70, 72, false⟩,
        ⟨75, 100, false⟩],
      ∀ b ∈ [(⟨2, 40, true⟩ : EventInstance), ⟨50, 70, true⟩,
        ⟨72, 75, true⟩],
      f.end_ts ≤ b.start_ts ∨ b.end_ts ≤ f.start_ts) :=
  ⟨by decide,
    claim_C1 [⟨5, 100, false⟩] [⟨2, 40, true⟩, ⟨50, 70, true⟩, ⟨72, 75, true⟩]
      32 _ (by decide) (by decide) (by decide) (by decide) (by decide)⟩

/-! ## Idempotence of subtraction (claim C9) -/

theorem removeGo_noop (bs : List EventInstance) (p : EventInstance)
    (hpv : ValidInstance p) (hpno : ∀ b ∈ bs, NoOv p b) :
    ∀ (fuel : Nat) (skip pos : Nat), bs.length - (skip + pos) < fuel →
      EventInstance.removeInstancesGo fuel bs p skip pos false []
        = RunResult.ok [p] := by
  intro fuel
  induction fuel with
  | zero => intro skip pos h; omega
  | succ fuel ih =>
    intro skip pos hlt
    unfold EventInstance.removeInstancesGo
    cases hb : bs[skip + pos]? with
    | none => simp [CompatibleInstances.push_back]
    | some b =>
      have hbmem : b ∈ bs := List.getElem?_mem hb
      have hbounds : skip + pos < bs.length :=
        (List.getElem?_eq_some.mp hb).1
      simp only []
      rcases hpno b hbmem with hno | hno
      · rw [if_pos (show b.start_ts ≥ p.end_ts by omega)]
        simp [CompatibleInstances.push_back]
      · by_cases hbr : b.start_ts ≥ p.end_ts
        · rw [if_pos hbr]
          simp [CompatibleInstances.push_back]
        · rw [if_neg hbr]
          have hcls : EventInstance.remove_instance p b
              = SubtractInstanceResult.noOverlap := by
            unfold EventInstance.remove_instance
            rw [if_pos]
            rcases eq_or_lt_of_le hno with heq | hlt2
            · exact Or.inr heq.symm
            · refine Or.inl ?_
              rw [EventInstance.has_overlap, Bool.and_eq_false_iff]
              refine Or.inl (decide_eq_false ?_)
              omega
          rw [hcls]
          simp only []
          exact ih skip (pos + 1) (by omega)

theorem remove_intances_noop (bs : List EventInstance) :
    ∀ (l : List EventInstance) (fuel : Nat), bs.length < fuel →
      (∀ p ∈ l, ValidInstance p ∧ ∀ b ∈ bs, NoOv p b) →
      CompatibleInstances.remove_intances fuel l bs 0 = RunResult.ok l := by
  intro l
  induction l with
  | nil => intro fuel _ _; rfl
  | cons f rest ih =>
    intro fuel hfuel hgood
    unfold CompatibleInstances.remove_intances
    have hf : EventInstance.remove_instances fuel f bs 0
        = RunResult.ok [f] := by
      unfold EventInstance.remove_instances
      exact removeGo_noop bs f (hgood f (by simp)).1
        (hgood f (by simp)).2 fuel 0 0 (by omega)
    rw [hf]
    simp only []
    rw [ih fuel hfuel (fun p hp => hgood p (by simp [hp]))]
    simp

/-- C9: subtraction is idempotent — if `free.remove_intances(&busy, 0)`
succeeds with result `out`, then subtracting the same busy set from
`out` (with any sufficient fuel) succeeds and returns `out` unchanged. -/
theorem claim_C9 (free busy : List EventInstance) (fuel fuel2 : Nat)
    (out : List EventInstance)
    (hfv : AllValid free) (hfs : CompatSorted free)
    (hbv : AllValid busy) (hbs : CompatSorted busy)
    (h : CompatibleInstances.remove_intances fuel free busy 0
      = RunResult.ok out)
    (hfuel2 : busy.length < fuel2) :
    CompatibleInstances.remove_intances fuel2 out busy 0
      = RunResult.ok out := by
  apply remove_intances_noop busy out fuel2 hfuel2
  intro p hp
  obtain ⟨f, hf, hgp⟩ :=
    remove_intances_spec busy hbs hbv free fuel out hfv h p hp
  exact ⟨hgp.1, hgp.2.2.2⟩

/-- C9 (witness): idempotence at the `remove_busy_from_free_test_1`
unit-test input. -/
theorem claim_C9_witness :
    CompatibleInstances.remove_intances 32 [⟨5, 100, false⟩]
      [⟨2, 40, true⟩, ⟨50, 70, true⟩, ⟨72, 75, true⟩] 0
      = RunResult.ok [⟨40, 50, false⟩, ⟨70, 72, false⟩, ⟨75, 100, false⟩] ∧
    CompatibleInstances.remove_intances 4
      [⟨40, 50, false⟩, ⟨70, 72, false⟩, ⟨75, 100, false⟩]
      [⟨2, 40, true⟩, ⟨50, 70, true⟩, ⟨72, 75, true⟩] 0
      = RunResult.ok [⟨40, 50, false⟩, ⟨70, 72, false⟩, ⟨75, 100, false⟩] :=
  ⟨by decide,
    claim_C9 [⟨5, 100, false⟩] [⟨2, 40, true⟩, ⟨50, 70, true⟩, ⟨72, 75, true⟩]
      32 4 _ (by decide) (by decide) (by decide) (by decide) (by decide)
      (by decide)⟩

/-! ## Totality of subtraction (claim C3) -/

theorem removeGo_no_panic (bs : List EventInstance) (hbv : AllValid bs) :
    ∀ (fuel : Nat) (f : EventInstance) (skip pos : Nat) (conflict : Bool)
      (acc : List EventInstance),
      EventInstance.removeInstancesGo fuel bs f skip pos conflict acc
        ≠ RunResult.assertFailed := by
  intro fuel
  induction fuel with
  | zero =>
    intro f skip pos conflict acc
    simp [EventInstance.removeInstancesGo]
  | succ fuel ih =>
    intro f skip pos conflict acc
    unfold EventInstance.removeInstancesGo
    cases hb : bs[skip + pos]? with
    | none => simp
    | some b =>
      have hbmem : b ∈ bs := List.getElem?_mem hb
      have hbvb : b.start_ts < b.end_ts := hbv b hbmem
      simp only []
      by_cases hbr : b.start_ts ≥ f.end_ts
      · rw [if_pos hbr]
        simp
      · rw [if_neg hbr]
        cases hr : EventInstance.remove_instance f b with
          | noOverlap => exact ih f skip (pos + 1) false acc
          | empty => exact ih f skip (pos + 1) true acc
          | overlapEnd e =>
            obtain ⟨hee, -⟩ := remove_instance_overlapEnd_inv hr
            rw [hee]
            exact ih f skip (pos + 1) true _
          | overlapBeginning e =>
            obtain ⟨hee, -⟩ := remove_instance_overlapBeginning_inv hr
            rw [hee]
            simp only []
            cases hrec : EventInstance.removeInstancesGo fuel bs
                ⟨b.end_ts, f.end_ts, false⟩ (pos + 1) 0 false [] with
            | ok r => exact ih f skip (pos + 1) true _
            | assertFailed =>
              exact absurd hrec (ih ⟨b.end_ts, f.end_ts, false⟩ (pos + 1) 0
                false [])
            | fuelOut => simp
          | split e =>
            obtain ⟨hee, -⟩ := remove_instance_split_inv hbvb hr
            rw [hee]
            simp only []
            cases hrec : EventInstance.removeInstancesGo fuel bs
                ⟨b.end_ts, f.end_ts, false⟩ (pos + 1) 0 false [] with
            | ok r => exact ih f skip (pos + 1) true _
            | assertFailed =>
              exact absurd hrec (ih ⟨b.end_ts, f.end_ts, false⟩ (pos + 1) 0
                false [])
            | fuelOut => simp

theorem remove_intances_no_panic (bs : List EventInstance)
    (hbv : AllValid bs) :
    ∀ (l : List EventInstance) (fuel : Nat) (skip : Nat),
      CompatibleInstances.remove_intances fuel l bs skip
        ≠ RunResult.assertFailed := by
  intro l
  induction l with
  | nil =>
    intro fuel skip
    simp [CompatibleInstances.remove_intances]
  | cons f rest ih =>
    intro fuel skip
    unfold CompatibleInstances.remove_intances
    cases hf : EventInstance.remove_instances fuel f bs skip with
    | assertFailed =>
      exact absurd hf (removeGo_no_panic bs hbv fuel f skip 0 false [])
    | fuelOut => simp
    | ok r =>
      simp only []
      cases hrest : CompatibleInstances.remove_intances fuel rest bs skip with
      | assertFailed => exact absurd hrest (ih fuel skip)
      | fuelOut => simp
      | ok rs => simp

theorem filter_length_lt {α : Type} (p q : α → Bool) :
    ∀ (l : List α) (b : α), b ∈ l → (∀ x, p x = true → q x = true) →
      p b = false → q b = true →
      (l.filter p).length < (l.filter q).length := by
  intro l
  induction l with
  | nil => intro b hb; exact absurd hb (List.not_mem_nil b)
  | cons a l ih =>
    intro b hb himp hpb hqb
    have hsub : (l.filter p).length ≤ (l.filter q).length :=
      (List.monotone_filter_right l (fun x hx => himp x hx)).length_le
    rcases List.mem_cons.mp hb with hb | hb
    · subst hb
      simp [List.filter_cons, hpb, hqb]
      omega
    · have := ih b hb himp hpb hqb
      by_cases hpa : p a = true
      · simp [List.filter_cons, hpa, himp a hpa]
        omega
      · rw [Bool.not_eq_true] at hpa
        by_cases hqa : q a = true
        · simp [List.filter_cons, hpa, hqa]
          omega
        · rw [Bool.not_eq_true] at hqa
          simp [List.filter_cons, hpa, hqa]
          omega

/-- The number of busy instances whose end lies strictly after the start
of the free instance `f`: decreases at every recursive call of
`remove_instances`. -/
def busyMeasure (bs : List EventInstance) (f : EventInstance) : Nat :=
  (bs.filter (fun b => decide (f.start_ts < b.end_ts))).length

theorem busyMeasure_lt {bs : List EventInstance} {f b : EventInstance}
    (hbmem : b ∈ bs) (hov : f.start_ts < b.end_ts) (x : EventInstance)
    (hx : x.start_ts = b.end_ts) : busyMeasure bs x < busyMeasure bs f := by
  unfold busyMeasure
  apply filter_length_lt _ _ bs b hbmem
  · intro y hy
    rw [decide_eq_true_iff] at hy
    rw [decide_eq_true_iff]
    omega
  · rw [decide_eq_false_iff_not]
    omega
  · rw [decide_eq_true_iff]
    exact hov

theorem removeGo_mono (bs : List EventInstance) :
    ∀ (fuel : Nat) (f : EventInstance) (skip pos : Nat) (conflict : Bool)
      (acc out : List EventInstance),
      EventInstance.removeInstancesGo fuel bs f skip pos conflict acc
        = RunResult.ok out →
      EventInstance.removeInstancesGo (fuel + 1) bs f skip pos conflict acc
        = RunResult.ok out := by
  intro fuel
  induction fuel with
  | zero =>
    intro f skip pos conflict acc out h
    exact absurd h (by simp [EventInstance.removeInstancesGo])
  | succ fuel ih =>
    intro f skip pos conflict acc out h
    unfold EventInstance.removeInstancesGo at h ⊢
    cases hb : bs[skip + pos]? with
    | none =>
      try rw [hb] at h
      try rw [hb]
      simp only [] at h ⊢
      exact h
    | some b =>
      try rw [hb] at h
      try rw [hb]
      simp only [] at h ⊢
      by_cases hbr : b.start_ts ≥ f.end_ts
      · rw [if_pos hbr] at h ⊢
        exact h
      · rw [if_neg hbr] at h ⊢
        cases hr : EventInstance.remove_instance f b with
        | noOverlap =>
          try rw [hr] at h
          try rw [hr]
          simp only [] at h ⊢
          exact ih f skip (pos + 1) false acc out h
        | empty =>
          try rw [hr] at h
          try rw [hr]
          simp only [] at h ⊢
          exact ih f skip (pos + 1) true acc out h
        | overlapEnd e =>
          try rw [hr] at h
          try rw [hr]
          cases e with
          | nil => simp at h
          | cons x xs =>
            cases xs with
            | cons y ys => simp at h
            | nil =>
              simp only [] at h ⊢
              exact ih f skip (pos + 1) true _ out h
        | overlapBeginning e =>
          try rw [hr] at h
          try rw [hr]
          cases e with
          | nil => simp at h
          | cons x xs =>
            cases xs with
            | cons y ys => simp at h
            | nil =>
              simp only [] at h ⊢
              cases hrec : EventInstance.removeInstancesGo fuel bs x (pos + 1)
                  0 false [] with
              | assertFailed =>
                try rw [hrec] at h
                simp at h
              | fuelOut =>
                try rw [hrec] at h
                simp at h
              | ok r =>
                try rw [hrec] at h
                simp only [] at h
                rw [ih x (pos + 1) 0 false [] r hrec]
                simp only []
                exact ih f skip (pos + 1) true _ out h
        | split e =>
          try rw [hr] at h
          try rw [hr]
          cases e with
          | nil => simp at h
          | cons x xs =>
            cases xs with
            | nil => simp at h
            | cons y ys =>
              cases ys with
              | cons z zs => simp at h
              | nil =>
                simp only [] at h ⊢
                cases hrec : EventInstance.removeInstancesGo fuel bs y
                    (pos + 1) 0 false [] with
                | assertFailed =>
                  try rw [hrec] at h
                  simp at h
                | fuelOut =>
                  try rw [hrec] at h
                  simp at h
                | ok r =>
                  try rw [hrec] at h
                  simp only [] at h
                  rw [ih y (pos + 1) 0 false [] r hrec]
                  simp only []
                  exact ih f skip (pos + 1) true _ out h

theorem removeGo_mono_le (bs : List EventInstance) {fuel fuel' : Nat}
    (hle : fuel ≤ fuel') :
    ∀ (f : EventInstance) (skip pos : Nat) (conflict : Bool)
      (acc out : List EventInstance),
      EventInstance.removeInstancesGo fuel bs f skip pos conflict acc
        = RunResult.ok out →
      EventInstance.removeInstancesGo fuel' bs f skip pos conflict acc
        = RunResult.ok out := by
  induction fuel' with
  | zero =>
    intro f skip pos conflict acc out h
    have hf0 : fuel = 0 := by omega
    rw [← hf0]
    exact h
  | succ n ihn =>
    intro f skip pos conflict acc out h
    rcases Nat.lt_or_ge fuel (n + 1) with hlt | hge
    · exact removeGo_mono bs n f skip pos conflict acc out
        (ihn (by omega) f skip pos conflict acc out h)
    · have hf : fuel = n + 1 := by omega
      rw [← hf]
      exact h

theorem removeGo_succ_none {bs : List EventInstance} {skip pos : Nat}
    (fuel : Nat) (f : EventInstance) (conflict : Bool)
    (acc : List EventInstance) (hb : bs[skip + pos]? = none) :
    EventInstance.removeInstancesGo (fuel + 1) bs f skip pos conflict acc
      = RunResult.ok
        (if conflict then acc else CompatibleInstances.push_back acc f) := by
  conv_lhs => rw [EventInstance.removeInstancesGo.eq_def]
  simp only []
  rw [hb]

theorem removeGo_succ_break {bs : List EventInstance} {skip pos : Nat}
    {b : EventInstance} (fuel : Nat) (f : EventInstance) (conflict : Bool)
    (acc : List EventInstance) (hb : bs[skip + pos]? = some b)
    (hbr : b.start_ts ≥ f.end_ts) :
    EventInstance.removeInstancesGo (fuel + 1) bs f skip pos conflict acc
      = RunResult.ok
        (if conflict then acc else CompatibleInstances.push_back acc f) := by
  conv_lhs => rw [EventInstance.removeInstancesGo.eq_def]
  simp only []
  rw [hb]
  simp only []
  rw [if_pos hbr]

theorem removeGo_succ_noOverlap {bs : List EventInstance} {skip pos : Nat}
    {b f : EventInstance} (fuel : Nat) (conflict : Bool)
    (acc : List EventInstance) (hb : bs[skip + pos]? = some b)
    (hbr : ¬ b.start_ts ≥ f.end_ts)
    (hr : EventInstance.remove_instance f b
      = SubtractInstanceResult.noOverlap) :
    EventInstance.removeInstancesGo (fuel + 1) bs f skip pos conflict acc
      = EventInstance.removeInstancesGo fuel bs f skip (pos + 1) false acc
      := by
  conv_lhs => rw [EventInstance.removeInstancesGo.eq_def]
  simp only []
  rw [hb]
  simp only []
  rw [if_neg hbr, hr]

theorem removeGo_succ_empty {bs : List EventInstance} {skip pos : Nat}
    {b f : EventInstance} (fuel : Nat) (conflict : Bool)
    (acc : List EventInstance) (hb : bs[skip + pos]? = some b)
    (hbr : ¬ b.start_ts ≥ f.end_ts)
    (hr : EventInstance.remove_instance f b = SubtractInstanceResult.empty) :
    EventInstance.removeInstancesGo (fuel + 1) bs f skip pos conflict acc
      = EventInstance.removeInstancesGo fuel bs f skip (pos + 1) true acc
      := by
  conv_lhs => rw [EventInstance.removeInstancesGo.eq_def]
  simp only []
  rw [hb]
  simp only []
  rw [if_neg hbr, hr]

theorem removeGo_succ_overlapEnd {bs : List EventInstance} {skip pos : Nat}
    {b f x : EventInstance} (fuel : Nat) (conflict : Bool)
    (acc : List EventInstance) (hb : bs[skip + pos]? = some b)
    (hbr : ¬ b.start_ts ≥ f.end_ts)
    (hr : EventInstance.remove_instance f b
      = SubtractInstanceResult.overlapEnd [x]) :
    EventInstance.removeInstancesGo (fuel + 1) bs f skip pos conflict acc
      = EventInstance.removeInstancesGo fuel bs f skip (pos + 1) true
        (CompatibleInstances.extend acc [x]) := by
  conv_lhs => rw [EventInstance.removeInstancesGo.eq_def]
  simp only []
  rw [hb]
  simp only []
  rw [if_neg hbr, hr]

theorem removeGo_succ_overlapBeginning_ok {bs : List EventInstance}
    {skip pos : Nat} {b f x : EventInstance} {r : List EventInstance}
    (fuel : Nat) (conflict : Bool) (acc : List EventInstance)
    (hb : bs[skip + pos]? = some b) (hbr : ¬ b.start_ts ≥ f.end_ts)
    (hr : EventInstance.remove_instance f b
      = SubtractInstanceResult.overlapBeginning [x])
    (hrec : EventInstance.removeInstancesGo fuel bs x (pos + 1) 0 false []
      = RunResult.ok r) :
    EventInstance.removeInstancesGo (fuel + 1) bs f skip pos conflict acc
      = EventInstance.removeInstancesGo fuel bs f skip (pos + 1) true
        (CompatibleInstances.extend acc r) := by
  conv_lhs => rw [EventInstance.removeInstancesGo.eq_def]
  simp only []
  rw [hb]
  simp only []
  rw [if_neg hbr, hr]
  simp only []
  rw [hrec]

theorem removeGo_succ_split_ok {bs : List EventInstance}
    {skip pos : Nat} {b f x1 x2 : EventInstance} {r : List EventInstance}
    (fuel : Nat) (conflict : Bool) (acc : List EventInstance)
    (hb : bs[skip + pos]? = some b) (hbr : ¬ b.start_ts ≥ f.end_ts)
    (hr : EventInstance.remove_instance f b
      = SubtractInstanceResult.split [x1, x2])
    (hrec : EventInstance.removeInstancesGo fuel bs x2 (pos + 1) 0 false []
      = RunResult.ok r) :
    EventInstance.removeInstancesGo (fuel + 1) bs f skip pos conflict acc
      = EventInstance.removeInstancesGo fuel bs f skip (pos + 1) true
        (CompatibleInstances.extend acc
          (CompatibleInstances.push_front r x1)) := by
  conv_lhs => rw [EventInstance.removeInstancesGo.eq_def]
  simp only []
  rw [hb]
  simp only []
  rw [if_neg hbr, hr]
  simp only []
  rw [hrec]

theorem removeGo_exists_inner (bs : List EventInstance) (hbv : AllValid bs)
    (f : EventInstance)
    (hnest : ∀ x : EventInstance, busyMeasure bs x < busyMeasure bs f →
      ∀ (skip pos : Nat) (conflict : Bool) (acc : List EventInstance),
        ∃ fuel out, EventInstance.removeInstancesGo fuel bs x skip pos
          conflict acc = RunResult.ok out) :
    ∀ (r skip pos : Nat), bs.length - (skip + pos) ≤ r →
      ∀ (conflict : Bool) (acc : List EventInstance),
        ∃ fuel out, EventInstance.removeInstancesGo fuel bs f skip pos
          conflict acc = RunResult.ok out := by
  intro r
  induction r with
  | zero =>
    intro skip pos hr conflict acc
    have hb : bs[skip + pos]? = none := List.getElem?_eq_none (by omega)
    exact ⟨1, _, removeGo_succ_none 0 f conflict acc hb⟩
  | succ r ihr =>
    intro skip pos hr conflict acc
    cases hb : bs[skip + pos]? with
    | none => exact ⟨1, _, removeGo_succ_none 0 f conflict acc hb⟩
    | some b =>
      have hlen := (List.getElem?_eq_some.mp hb).1
      have hbmem : b ∈ bs := List.getElem?_mem hb
      have hbvb : b.start_ts < b.end_ts := hbv b hbmem
      by_cases hbr : b.start_ts ≥ f.end_ts
      · exact ⟨1, _, removeGo_succ_break 0 f conflict acc hb hbr⟩
      · cases hrcl : EventInstance.remove_instance f b with
        | noOverlap =>
          obtain ⟨fuel, out, hout⟩ := ihr skip (pos + 1) (by omega) false acc
          exact ⟨fuel + 1, out, by
            rw [removeGo_succ_noOverlap fuel conflict acc hb hbr hrcl]
            exact hout⟩
        | empty =>
          obtain ⟨fuel, out, hout⟩ := ihr skip (pos + 1) (by omega) true acc
          exact ⟨fuel + 1, out, by
            rw [removeGo_succ_empty fuel conflict acc hb hbr hrcl]
            exact hout⟩
        | overlapEnd e =>
          obtain ⟨hee, -⟩ := remove_instance_overlapEnd_inv hrcl
          rw [hee] at hrcl
          obtain ⟨fuel, out, hout⟩ := ihr skip (pos + 1) (by omega) true
            (CompatibleInstances.extend acc [⟨f.start_ts, b.start_ts, false⟩])
          exact ⟨fuel + 1, out, by
            rw [removeGo_succ_overlapEnd fuel conflict acc hb hbr hrcl]
            exact hout⟩
        | overlapBeginning e =>
          obtain ⟨hee, hob1, hob2, hob3⟩ :=
            remove_instance_overlapBeginning_inv hrcl
          rw [hee] at hrcl
          have hmlt : busyMeasure bs ⟨b.end_ts, f.end_ts, false⟩
              < busyMeasure bs f := busyMeasure_lt hbmem hob3 _ rfl
          obtain ⟨fuel1, r1, hrec1⟩ := hnest _ hmlt (pos + 1) 0 false []
          obtain ⟨fuel2, out, hout2⟩ := ihr skip (pos + 1) (by omega) true
            (CompatibleInstances.extend acc r1)
          refine ⟨max fuel1 fuel2 + 1, out, ?_⟩
          rw [removeGo_succ_overlapBeginning_ok (max fuel1 fuel2) conflict acc
            hb hbr hrcl
            (removeGo_mono_le bs (le_max_left _ _) _ _ _ _ _ _ hrec1)]
          exact removeGo_mono_le bs (le_max_right _ _) _ _ _ _ _ _ hout2
        | split e =>
          obtain ⟨hee, hs1, hs2, hs3⟩ := remove_instance_split_inv hbvb hrcl
          rw [hee] at hrcl
          have hmlt : busyMeasure bs ⟨b.end_ts, f.end_ts, false⟩
              < busyMeasure bs f := busyMeasure_lt hbmem hs3 _ rfl
          obtain ⟨fuel1, r1, hrec1⟩ := hnest _ hmlt (pos + 1) 0 false []
          obtain ⟨fuel2, out, hout2⟩ := ihr skip (pos + 1) (by omega) true
            (CompatibleInstances.extend acc (CompatibleInstances.push_front r1
              ⟨f.start_ts, b.start_ts, false⟩))
          refine ⟨max fuel1 fuel2 + 1, out, ?_⟩
          rw [removeGo_succ_split_ok (max fuel1 fuel2) conflict acc hb hbr
            hrcl (removeGo_mono_le bs (le_max_left _ _) _ _ _ _ _ _ hrec1)]
          exact removeGo_mono_le bs (le_max_right _ _) _ _ _ _ _ _ hout2

theorem removeGo_exists (bs : List EventInstance) (hbv : AllValid bs) :
    ∀ (n : Nat) (f : EventInstance), busyMeasure bs f ≤ n →
      ∀ (skip pos : Nat) (conflict : Bool) (acc : List EventInstance),
        ∃ fuel out, EventInstance.removeInstancesGo fuel bs f skip pos
          conflict acc = RunResult.ok out := by
  intro n
  induction n with
  | zero =>
    intro f hn skip pos conflict acc
    exact removeGo_exists_inner bs hbv f (fun x hx => absurd hx (by omega))
      bs.length skip pos (by omega) conflict acc
  | succ n ihn =>
    intro f hn skip pos conflict acc
    exact removeGo_exists_inner bs hbv f
      (fun x hx skip' pos' c' a' => ihn x (by omega) skip' pos' c' a')
      bs.length skip pos (by omega) conflict acc

theorem remove_intances_mono_le (bs : List EventInstance)
    {fuel fuel' : Nat} (hle : fuel ≤ fuel') :
    ∀ (l : List EventInstance) (skip : Nat) (out : List EventInstance),
      CompatibleInstances.remove_intances fuel l bs skip = RunResult.ok out →
      CompatibleInstances.remove_intances fuel' l bs skip
        = RunResult.ok out := by
  intro l
  induction l with
  | nil =>
    intro skip out h
    unfold CompatibleInstances.remove_intances at h ⊢
    exact h
  | cons f rest ih =>
    intro skip out h
    unfold CompatibleInstances.remove_intances at h ⊢
    cases hf : EventInstance.remove_instances fuel f bs skip with
    | assertFailed => rw [hf] at h; simp at h
    | fuelOut => rw [hf] at h; simp at h
    | ok r =>
      rw [hf] at h
      simp only [] at h
      have hf' : EventInstance.remove_instances fuel' f bs skip
          = RunResult.ok r := by
        unfold EventInstance.remove_instances at hf ⊢
        exact removeGo_mono_le bs hle _ _ _ _ _ _ hf
      rw [hf']
      simp only []
      cases hrest : CompatibleInstances.remove_intances fuel rest bs skip with
      | assertFailed => rw [hrest] at h; simp at h
      | fuelOut => rw [hrest] at h; simp at h
      | ok rs =>
        rw [hrest] at h
        simp only [] at h
        rw [ih skip rs hrest]
        simp only []
        exact h

theorem remove_intances_exists (bs : List EventInstance) (hbv : AllValid bs) :
    ∀ (l : List EventInstance) (skip : Nat),
      ∃ fuel out, CompatibleInstances.remove_intances fuel l bs skip
        = RunResult.ok out := by
  intro l
  induction l with
  | nil => intro skip; exact ⟨1, [], rfl⟩
  | cons f rest ih =>
    intro skip
    obtain ⟨fuel1, r, h1⟩ := removeGo_exists bs hbv (busyMeasure bs f) f
      le_rfl skip 0 false []
    obtain ⟨fuel2, rs, h2⟩ := ih skip
    refine ⟨max fuel1 fuel2, r ++ rs, ?_⟩
    unfold CompatibleInstances.remove_intances
    have h1' : EventInstance.remove_instances (max fuel1 fuel2) f bs skip
        = RunResult.ok r := by
      unfold EventInstance.remove_instances
      exact removeGo_mono_le bs (le_max_left _ _) _ _ _ _ _ _ h1
    rw [h1']
    simp only []
    rw [remove_intances_mono_le bs (le_max_right _ _) rest skip rs h2]

/-- C3: interval-set subtraction is total over valid inputs — for every
free set and every busy set of valid instances and every `skip`, the
embedded `remove_intances` never panics (all `assert_eq!` checks and
`unwrap`s succeed), and a sufficient recursion budget yields a normal
result. -/
theorem claim_C3 (free busy : List EventInstance)
    (hfv : AllValid free) (hbv : AllValid busy) (skip : Nat) :
    (∀ fuel, CompatibleInstances.remove_intances fuel free busy skip
      ≠ RunResult.assertFailed) ∧
    (∃ fuel out, CompatibleInstances.remove_intances fuel free busy skip
      = RunResult.ok out) :=
  ⟨fun fuel => remove_intances_no_panic busy hbv free fuel skip,
   remove_intances_exists busy hbv free skip⟩

/-- C3 (witness): totality at the `remove_busy_from_free_test_1`
unit-test input with `skip = 0`. -/
theorem claim_C3_witness :
    AllValid [⟨5, 100, false⟩] ∧
    AllValid [⟨2, 40, true⟩, ⟨50, 70, true⟩, ⟨72, 75, true⟩] ∧
    ((∀ fuel, CompatibleInstances.remove_intances fuel [⟨5, 100, false⟩]
        [⟨2, 40, true⟩, ⟨50, 70, true⟩, ⟨72, 75, true⟩] 0
        ≠ RunResult.assertFailed) ∧
      (∃ fuel out, CompatibleInstances.remove_intances fuel
        [⟨5, 100, false⟩] [⟨2, 40, true⟩, ⟨50, 70, true⟩, ⟨72, 75, true⟩] 0
        = RunResult.ok out)) :=
  ⟨by decide, by decide,
    claim_C3 [⟨5, 100, false⟩] [⟨2, 40, true⟩, ⟨50, 70, true⟩, ⟨72, 75, true⟩]
      (by decide) (by decide) 0⟩


/-! ## Service booking slots: the grouping map (claim C5) -/

theorem lookupSlot_insertSlot_self :
    ∀ (m : List (Int × ServiceBookingSlot)) (k : Int)
      (v : ServiceBookingSlot),
      lookupSlot (insertSlot m k v) k = some v := by
  intro m
  induction m with
  | nil => intro k v; simp [insertSlot, lookupSlot]
  | cons p rest ih =>
    intro k v
    obtain ⟨k', v'⟩ := p
    by_cases hk : k' = k
    · simp [insertSlot, hk, lookupSlot]
    · simp only [insertSlot, if_neg hk]
      simp only [lookupSlot, if_neg hk]
      exact ih k v

theorem lookupSlot_insertSlot_other :
    ∀ (m : List (Int × ServiceBookingSlot)) (k s : Int)
      (v : ServiceBookingSlot), s ≠ k →
      lookupSlot (insertSlot m k v) s = lookupSlot m s := by
  intro m
  induction m with
  | nil =>
    intro k s v hne
    simp [insertSlot, lookupSlot, Ne.symm hne]
  | cons p rest ih =>
    intro k s v hne
    obtain ⟨k', v'⟩ := p
    by_cases hk : k' = k
    · subst hk
      simp only [insertSlot, if_pos rfl]
      simp only [lookupSlot]
      rw [if_neg (Ne.symm hne), if_neg (Ne.symm hne)]
    · simp only [insertSlot, if_neg hk]
      simp only [lookupSlot]
      by_cases hk's : k' = s
      · rw [if_pos hk's, if_pos hk's]
      · rw [if_neg hk's, if_neg hk's]
        exact ih k s v hne

theorem mem_keys_insertSlot :
    ∀ (m : List (Int × ServiceBookingSlot)) (k : Int)
      (v : ServiceBookingSlot) (a : Int),
      a ∈ (insertSlot m k v).map Prod.fst →
      a ∈ m.map Prod.fst ∨ a = k := by
  intro m
  induction m with
  | nil => intro k v a ha; simp [insertSlot] at ha; exact Or.inr ha
  | cons p rest ih =>
    intro k v a ha
    obtain ⟨k', v'⟩ := p
    by_cases hk : k' = k
    · simp only [insertSlot, if_pos hk, List.map_cons, List.mem_cons] at ha
      rcases ha with ha | ha
      · exact Or.inr ha
      · exact Or.inl (by simp [ha])
    · simp only [insertSlot, if_neg hk, List.map_cons, List.mem_cons] at ha
      rcases ha with ha | ha
      · exact Or.inl (by simp [ha])
      · rcases ih k v a ha with h | h
        · exact Or.inl (by simp; right; simpa using h)
        · exact Or.inr h

theorem nodup_insertSlot :
    ∀ (m : List (Int × ServiceBookingSlot)) (k : Int)
      (v : ServiceBookingSlot),
      (m.map Prod.fst).Nodup → ((insertSlot m k v).map Prod.fst).Nodup := by
  intro m
  induction m with
  | nil => intro k v _; simp [insertSlot]
  | cons p rest ih =>
    intro k v hnd
    obtain ⟨k', v'⟩ := p
    rw [List.map_cons, List.nodup_cons] at hnd
    obtain ⟨hk'mem, hrest⟩ := hnd
    by_cases hk : k' = k
    · subst hk
      have he : insertSlot ((k', v') :: rest) k' v = (k', v) :: rest := by
        simp [insertSlot]
      rw [he, List.map_cons, List.nodup_cons]
      exact ⟨hk'mem, hrest⟩
    · simp only [insertSlot, if_neg hk, List.map_cons, List.nodup_cons]
      refine ⟨?_, ih k v hrest⟩
      intro hmem
      rcases mem_keys_insertSlot rest k v k' hmem with h | h
      · exact hk'mem h
      · exact hk h

theorem lookupSlot_mem :
    ∀ (m : List (Int × ServiceBookingSlot)) (s : Int)
      (v : ServiceBookingSlot),
      lookupSlot m s = some v → (s, v) ∈ m := by
  intro m
  induction m with
  | nil => intro s v h; simp [lookupSlot] at h
  | cons p rest ih =>
    intro s v h
    obtain ⟨k', v'⟩ := p
    simp only [lookupSlot] at h
    by_cases hk : k' = s
    · rw [if_pos hk] at h
      subst hk
      simp only [Option.some.injEq] at h
      subst h
      exact List.mem_cons_self _ _
    · rw [if_neg hk] at h
      exact List.mem_cons_of_mem _ (ih s v h)

theorem mem_lookupSlot :
    ∀ (m : List (Int × ServiceBookingSlot)),
      (m.map Prod.fst).Nodup →
      ∀ (s : Int) (v : ServiceBookingSlot),
      (s, v) ∈ m → lookupSlot m s = some v := by
  intro m
  induction m with
  | nil => intro _ s v h; simp at h
  | cons p rest ih =>
    intro hnd s v h
    obtain ⟨k', v'⟩ := p
    rw [List.map_cons, List.nodup_cons] at hnd
    obtain ⟨hk'mem, hrest⟩ := hnd
    rcases List.mem_cons.mp h with h | h
    · rw [Prod.mk.injEq] at h
      obtain ⟨h1, h2⟩ := h
      simp only [lookupSlot]
      rw [if_pos h1.symm, h2]
    · have hsk : k' ≠ s := by
        intro he
        subst he
        exact hk'mem (by simpa using List.mem_map_of_mem Prod.fst h)
      simp only [lookupSlot]
      rw [if_neg hsk]
      exact ih hrest s v h

theorem addUserSlots_nil (m : List (Int × ServiceBookingSlot)) (uid : ID) :
    addUserSlots m uid [] = m := rfl

theorem addUserSlots_cons (m : List (Int × ServiceBookingSlot)) (uid : ID)
    (sl : BookingSlot) (rest : List BookingSlot) :
    addUserSlots m uid (sl :: rest)
      = addUserSlots (addUserSlot m uid sl) uid rest := rfl

theorem nodup_addUserSlots (uid : ID) :
    ∀ (slots : List BookingSlot) (m : List (Int × ServiceBookingSlot)),
      (m.map Prod.fst).Nodup →
      ((addUserSlots m uid slots).map Prod.fst).Nodup := by
  intro slots
  induction slots with
  | nil => intro m h; exact h
  | cons sl rest ih =>
    intro m h
    rw [addUserSlots_cons]
    unfold addUserSlot
    cases hl : lookupSlot m sl.start with
    | none => exact ih _ (nodup_insertSlot m sl.start _ h)
    | some val => exact ih _ (nodup_insertSlot m sl.start _ h)

theorem addUserSlots_lookup_untouched (uid : ID) :
    ∀ (slots : List BookingSlot) (m : List (Int × ServiceBookingSlot))
      (s : Int),
      slots.find? (fun sl => decide (sl.start = s)) = none →
      lookupSlot (addUserSlots m uid slots) s = lookupSlot m s := by
  intro slots
  induction slots with
  | nil => intro m s _; rw [addUserSlots_nil]
  | cons sl rest ih =>
    intro m s hfind
    have hsl : ¬(sl.start = s) := by
      have := List.find?_eq_none.mp hfind sl (List.mem_cons_self _ _)
      simpa using this
    have hrest : rest.find? (fun sl => decide (sl.start = s)) = none := by
      rw [← hfind]
      exact (List.find?_cons_of_neg _ (by simpa using hsl)).symm
    rw [addUserSlots_cons, ih _ s hrest]
    unfold addUserSlot
    cases hl : lookupSlot m sl.start with
    | none =>
      exact lookupSlot_insertSlot_other m sl.start s _ (fun h => hsl h.symm)
    | some val =>
      exact lookupSlot_insertSlot_other m sl.start s _ (fun h => hsl h.symm)

theorem addUserSlots_lookup_hit (uid : ID) :
    ∀ (slots : List BookingSlot) (m : List (Int × ServiceBookingSlot))
      (s : Int) (sl : BookingSlot),
      (slots.map (fun sl => sl.start)).Nodup →
      slots.find? (fun sl => decide (sl.start = s)) = some sl →
      lookupSlot (addUserSlots m uid slots) s =
        some { start := s, duration := sl.duration,
               user_ids := (match lookupSlot m s with
                 | some v => v.user_ids
                 | none => []) ++ [uid] } := by
  intro slots
  induction slots with
  | nil => intro m s sl _ hfind; simp [List.find?] at hfind
  | cons sl' rest ih =>
    intro m s sl hnd hfind
    rw [List.map_cons, List.nodup_cons] at hnd
    obtain ⟨hhead, hndr⟩ := hnd
    by_cases hss : sl'.start = s
    · have hsl : sl = sl' := by
        rw [List.find?_cons_of_pos _ (by simpa using hss)] at hfind
        exact (Option.some.inj hfind).symm
      subst hsl
      subst hss
      have hrest : rest.find? (fun x => decide (x.start = sl.start)) = none := by
        apply List.find?_eq_none.mpr
        intro x hx
        simp only [decide_eq_true_eq]
        intro hxs
        apply hhead
        have : x.start ∈ rest.map (fun sl => sl.start) :=
          List.mem_map_of_mem _ hx
        rwa [hxs] at this
      rw [addUserSlots_cons,
        addUserSlots_lookup_untouched uid rest _ sl.start hrest]
      unfold addUserSlot
      cases hl : lookupSlot m sl.start with
      | none =>
        rw [lookupSlot_insertSlot_self]
        rfl
      | some val =>
        rw [lookupSlot_insertSlot_self]
    · have hfind' : rest.find? (fun x => decide (x.start = s)) = some sl := by
        rw [← hfind]
        exact (List.find?_cons_of_neg _ (by simpa using hss)).symm
      rw [addUserSlots_cons, ih _ s sl hndr hfind']
      unfold addUserSlot
      cases hl : lookupSlot m sl'.start with
      | none =>
        rw [lookupSlot_insertSlot_other m sl'.start s _ (fun h => hss h.symm)]
      | some val =>
        rw [lookupSlot_insertSlot_other m sl'.start s _ (fun h => hss h.symm)]

theorem get_booking_slots_pairwise (fuel : Nat)
    (free_events : CompatibleInstances) (options : BookingSlotsOptions)
    (slots : List BookingSlot) (hi : 1 ≤ options.interval)
    (h : get_booking_slots fuel free_events options = some slots) :
    slots.Pairwise (fun a b => a.start < b.start) := by
  unfold get_booking_slots at h
  by_cases hd : options.duration < 1
  · rw [if_pos hd] at h
    have hout : ([] : List BookingSlot) = slots := by simpa using h
    subst hout
    simp
  · rw [if_neg hd] at h
    exact (getBookingSlotsGo_spec free_events options.end_ts
      options.duration options.interval hi fuel options.start_ts slots h).2

theorem serviceFold_spec (fuel : Nat) (options : BookingSlotsOptions)
    (hi : 1 ≤ options.interval) :
    ∀ (todo done : List UserFreeEvents)
      (m out : List (Int × ServiceBookingSlot)),
      serviceFold fuel options todo m = some out →
      (((m.map Prod.fst).Nodup) ∧
        ∀ s : Int,
          (∀ v, lookupSlot m s = some v → v.start = s ∧
            v.user_ids = (done.filter
              (fun u => userEmits fuel options u s)).map
              (fun u => u.user_id)) ∧
          (lookupSlot m s = none ↔
            ∀ u ∈ done, userEmits fuel options u s = false)) →
      (((out.map Prod.fst).Nodup) ∧
        ∀ s : Int,
          (∀ v, lookupSlot out s = some v → v.start = s ∧
            v.user_ids = ((done ++ todo).filter
              (fun u => userEmits fuel options u s)).map
              (fun u => u.user_id)) ∧
          (lookupSlot out s = none ↔
            ∀ u ∈ done ++ todo, userEmits fuel options u s = false)) := by
  intro todo
  induction todo with
  | nil =>
    intro done m out h hinv
    unfold serviceFold at h
    simp only [Option.some.injEq] at h
    subst h
    simpa using hinv
  | cons user rest ih =>
    intro done m out h hinv
    unfold serviceFold at h
    cases hgb : get_booking_slots fuel user.free_events options with
    | none => rw [hgb] at h; simp at h
    | some slots =>
      rw [hgb] at h
      simp only [] at h
      have hsplit : done ++ user :: rest = (done ++ [user]) ++ rest := by
        simp
      rw [hsplit]
      apply ih (done ++ [user]) _ out h
      obtain ⟨hnd, hinvs⟩ := hinv
      have hpw : slots.Pairwise (fun a b => a.start < b.start) :=
        get_booking_slots_pairwise fuel user.free_events options slots hi hgb
      have hndst : (slots.map (fun sl => sl.start)).Nodup := by
        unfold List.Nodup
        simp only [List.pairwise_map]
        exact hpw.imp (fun h => ne_of_lt h)
      refine ⟨nodup_addUserSlots user.user_id slots m hnd, ?_⟩
      intro s
      have hemit : userEmits fuel options user s
          = slots.any (fun sl => decide (sl.start = s)) := by
        unfold userEmits
        rw [hgb]
      cases hfind : slots.find? (fun sl => decide (sl.start = s)) with
      | some sl =>
        have hch := addUserSlots_lookup_hit user.user_id slots m s sl
          hndst hfind
        have huser : userEmits fuel options user s = true := by
          rw [hemit]
          have hp : decide (sl.start = s) = true := by
            simpa using List.find?_some hfind
          exact List.any_eq_true.mpr
            ⟨sl, List.mem_of_find?_eq_some hfind, hp⟩
        have hfilter : (done ++ [user]).filter
            (fun u => userEmits fuel options u s)
            = done.filter (fun u => userEmits fuel options u s) ++ [user] := by
          rw [List.filter_append]
          simp [List.filter, huser]
        constructor
        · intro w hw
          rw [hch] at hw
          simp only [Option.some.injEq] at hw
          subst hw
          refine ⟨rfl, ?_⟩
          rw [hfilter, List.map_append]
          cases hlm : lookupSlot m s with
          | some v =>
            have hveq := ((hinvs s).1 v hlm).2
            simp [hveq]
          | none =>
            have hdone : ∀ u ∈ done, userEmits fuel options u s = false :=
              ((hinvs s).2).mp hlm
            have hdf : done.filter (fun u => userEmits fuel options u s)
                = [] := by
              apply List.filter_eq_nil_iff.mpr
              intro u hu
              simp [hdone u hu]
            simp [hdf]
        · constructor
          · intro h'
            rw [hch] at h'
            exact absurd h' (by simp)
          · intro hall
            have := hall user (by simp)
            rw [huser] at this
            exact absurd this (by simp)
      | none =>
        have hch := addUserSlots_lookup_untouched user.user_id slots m s hfind
        have huser : userEmits fuel options user s = false := by
          rw [hemit]
          apply List.any_eq_false.mpr
          intro x hx
          simpa using List.find?_eq_none.mp hfind x hx
        have hfilter : (done ++ [user]).filter
            (fun u => userEmits fuel options u s)
            = done.filter (fun u => userEmits fuel options u s) := by
          rw [List.filter_append]
          simp [List.filter, huser]
        rw [hch]
        constructor
        · intro w hw
          obtain ⟨h1, h2⟩ := (hinvs s).1 w hw
          rw [hfilter]
          exact ⟨h1, h2⟩
        · constructor
          · intro h' u hu
            rcases List.mem_append.mp hu with hu | hu
            · exact ((hinvs s).2).mp h' u hu
            · rw [List.mem_singleton.mp hu]
              exact huser
          · intro hall
            exact ((hinvs s).2).mpr (fun u hu => hall u (by simp [hu]))

/-- C5: with `interval ≥ 1`, a successful `get_service_bookingslots`
returns slots sorted strictly ascending by `start` (so exactly one slot
per distinct start), and each slot lists as `user_ids` exactly the users
whose own `get_booking_slots` emits a slot at that start, each at most
once, in the order the users appear in the input; conversely every start
emitted by some user appears among the returned slots. -/
theorem claim_C5 (fuel : Nat) (users : List UserFreeEvents)
    (options : BookingSlotsOptions) (result : List ServiceBookingSlot)
    (hi : 1 ≤ options.interval)
    (h : get_service_bookingslots fuel users options = some result) :
    result.Pairwise (fun a b => a.start < b.start) ∧
    (∀ sl ∈ result,
      sl.user_ids = (users.filter
        (fun u => userEmits fuel options u sl.start)).map
        (fun u => u.user_id) ∧
      sl.user_ids ≠ []) ∧
    (∀ u ∈ users, ∀ s : Int, userEmits fuel options u s = true →
      ∃ sl ∈ result, sl.start = s) := by
  unfold get_service_bookingslots at h
  cases hsf : serviceFold fuel options users [] with
  | none => rw [hsf] at h; simp at h
  | some m =>
    rw [hsf] at h
    simp only [Option.some.injEq] at h
    subst h
    have base : ((([] : List (Int × ServiceBookingSlot)).map
          Prod.fst).Nodup) ∧
        ∀ s : Int,
          (∀ v, lookupSlot [] s = some v → v.start = s ∧
            v.user_ids = (([] : List UserFreeEvents).filter
              (fun u => userEmits fuel options u s)).map
              (fun u => u.user_id)) ∧
          (lookupSlot [] s = none ↔
            ∀ u ∈ ([] : List UserFreeEvents),
              userEmits fuel options u s = false) := by
      refine ⟨by simp, fun s => ⟨fun v hv => by simp [lookupSlot] at hv, ?_⟩⟩
      simp [lookupSlot]
    obtain ⟨hnd, hinv⟩ := serviceFold_spec fuel options hi users [] [] m
      hsf base
    simp only [List.nil_append] at hinv
    have hstart : ∀ p ∈ m, (p.2 : ServiceBookingSlot).start = p.1 := by
      intro p hp
      obtain ⟨k, v⟩ := p
      have hl : lookupSlot m k = some v := mem_lookupSlot m hnd k v hp
      exact ((hinv k).1 v hl).1
    refine ⟨?_, ?_, ?_⟩
    · have hle := sortByKey_pairwise (fun s : ServiceBookingSlot => s.start)
        (m.map (fun p => p.2))
      have hmapstart : (m.map (fun p => p.2)).map (fun sl => sl.start)
          = m.map Prod.fst := by
        rw [List.map_map]
        apply List.map_congr_left
        intro p hp
        simp only [Function.comp_apply]
        exact hstart p hp
      have hndres : ((sortByKey (fun s => s.start)
          (m.map fun p => p.2)).map (fun sl => sl.start)).Nodup := by
        have hpm := (sortByKey_perm (fun s : ServiceBookingSlot => s.start)
          (m.map (fun p => p.2))).map (fun sl : ServiceBookingSlot => sl.start)
        rw [hpm.nodup_iff, hmapstart]
        exact hnd
      have hne : (sortByKey (fun s => s.start)
          (m.map fun p => p.2)).Pairwise
          (fun a b => a.start ≠ b.start) := by
        unfold List.Nodup at hndres
        rw [List.pairwise_map] at hndres
        exact hndres
      exact (List.Pairwise.and hle hne).imp
        (fun h => lt_of_le_of_ne h.1 h.2)
    · intro sl hsl
      have hmm : sl ∈ m.map (fun p => p.2) := mem_sortByKey.mp hsl
      obtain ⟨p, hp, hpeq⟩ := List.mem_map.mp hmm
      obtain ⟨k, v⟩ := p
      have hveq : v = sl := hpeq
      subst hveq
      have hl : lookupSlot m k = some v := mem_lookupSlot m hnd k v hp
      obtain ⟨h1, h2⟩ := (hinv k).1 v hl
      constructor
      · rw [h1]
        exact h2
      · intro hnil
        rw [hnil] at h2
        have hfil : users.filter (fun u => userEmits fuel options u k)
            = [] := List.map_eq_nil.mp h2.symm
        have hallf : ∀ u ∈ users, userEmits fuel options u k = false := by
          intro u hu
          have := List.filter_eq_nil_iff.mp hfil u hu
          simpa using this
        have hnone : lookupSlot m k = none := ((hinv k).2).mpr hallf
        rw [hl] at hnone
        exact absurd hnone (by simp)
    · intro u hu s hemit
      cases hls : lookupSlot m s with
      | none =>
        have := ((hinv s).2).mp hls u hu
        rw [hemit] at this
        exact absurd this (by simp)
      | some v =>
        have hvs : v.start = s := ((hinv s).1 v hls).1
        refine ⟨v, ?_, hvs⟩
        apply mem_sortByKey.mpr
        apply List.mem_map.mpr
        exact ⟨(s, v), lookupSlot_mem m s v hls, rfl⟩

/-- C5 (witness): the service-intersection example of the spec — two
members with free sets `[{2,30}]` and `[{2,30},{33,52}]` and options
`start=10, end=100, duration=10, interval=10` yield slots at starts
10 and 20 shared by both users and at start 40 for the second only. -/
theorem claim_C5_witness :
    (1 ≤ (10 : Int)) ∧
    get_service_bookingslots 64
        [⟨[⟨2, 30, false⟩], 0⟩, ⟨[⟨2, 30, false⟩, ⟨33, 52, false⟩], 1⟩]
        ⟨10, 100, 10, 10⟩
      = some [⟨10, 10, [0, 1]⟩, ⟨20, 10, [0, 1]⟩, ⟨40, 10, [1]⟩] ∧
    (([(⟨10, 10, [0, 1]⟩ : ServiceBookingSlot), ⟨20, 10, [0, 1]⟩,
        ⟨40, 10, [1]⟩]).Pairwise (fun a b => a.start < b.start) ∧
      (∀ sl ∈ [(⟨10, 10, [0, 1]⟩ : ServiceBookingSlot), ⟨20, 10, [0, 1]⟩,
          ⟨40, 10, [1]⟩],
        sl.user_ids = (([⟨[⟨2, 30, false⟩], 0⟩,
            ⟨[⟨2, 30, false⟩, ⟨33, 52, false⟩], 1⟩] :
            List UserFreeEvents).filter
          (fun u => userEmits 64 ⟨10, 100, 10, 10⟩ u sl.start)).map
          (fun u => u.user_id) ∧
        sl.user_ids ≠ []) ∧
      (∀ u ∈ ([⟨[⟨2, 30, false⟩], 0⟩,
          ⟨[⟨2, 30, false⟩, ⟨33, 52, false⟩], 1⟩] : List UserFreeEvents),
        ∀ s : Int, userEmits 64 ⟨10, 100, 10, 10⟩ u s = true →
          ∃ sl ∈ [(⟨10, 10, [0, 1]⟩ : ServiceBookingSlot), ⟨20, 10, [0, 1]⟩,
            ⟨40, 10, [1]⟩], sl.start = s)) :=
  ⟨by decide, by decide,
    claim_C5 64
      [⟨[⟨2, 30, false⟩], 0⟩, ⟨[⟨2, 30, false⟩, ⟨33, 52, false⟩], 1⟩]
      ⟨10, 100, 10, 10⟩ _ (by decide) (by decide)⟩
